import Mathlib

set_option linter.unusedSectionVars false
set_option linter.dupNamespace false
set_option linter.unreachableTactic false
set_option linter.unusedTactic false
set_option maxHeartbeats 1000000

/-!
A verification of the `react` reactive-cell library.

This file embeds the Rust library in `src/lib.rs` (a `Reactor` of input and
computed cells over a directed dependency graph, with change propagation and
callbacks) as executable Lean definitions, and proves the specified properties
about them.

Embedding conventions:
* `petgraph::Graph` node indices are `Nat` indices into `Reactor.cells`;
  a node exists iff its index is below `cells.length`.  Nodes are only ever
  appended (`add_node`), matching petgraph's increasing index assignment.
* Dependency edges of a computed cell are stored as its ordered `deps` list:
  the edge with weight `ix` goes from the cell to `deps[ix]`, exactly as
  `create_compute` inserts them.
* The `BTreeMap` used by `compute_cell_shallow` is modelled by insertion into
  a key-sorted association list (`btreeInsert`); the arbitrary traversal order
  of `neighbors_directed` is modelled by quantifying over permutations of the
  edge list.
* The `HashSet` built by `find_deep_dependencies_on` is modelled as a
  duplicate-free list grown by `hinsert`.
* Recursive traversals (`find_deep_dependencies_on`, `update_dependants`) are
  embedded with an explicit fuel argument; the operations run them with fuel
  `cells.length`, and the termination theorem shows any fuel at least that
  large gives the same result.
* Callbacks are `FnMut` closures mutating external state; the observable
  behaviour is the sequence of invocations, so the embedding stores the
  registered callback identifiers and `set_value` returns the list of
  invocation events `(cell, callback id, argument value)` it performs.
* Mutating Rust methods on `&mut self` are embedded in state-passing style:
  they return the new `Reactor` together with their `Result`; an early error
  returns the unchanged reactor.
-/

namespace React

/-- Error type of the library (`ReactError` in `src/lib.rs`); the misspelling
`MissingDepedencies` is the source's. -/
inductive ReactError where
  | MissingCell (id : Nat)
  | ExpectedInputCell (id : Nat)
  | ExpectedComputedCell (id : Nat)
  | MissingDepedencies (missing_deps : List Nat)
  | CallbackDoesntExist (id : Nat)
  deriving DecidableEq, Repr

/-- A cell of the reactor: an input cell holding a value, or a computed cell
holding its ordered dependency list, compute function, cached value, and the
identifiers of its registered callbacks. -/
inductive Cell (T : Type) where
  | input (value : T)
  | computed (deps : List Nat) (f : List T → T) (value : T) (callbacks : List Nat)

/-- The reactor: the dependency graph (a list of cells indexed by `Nat`, edges
implicit in each computed cell's `deps` list) plus the callback-id counter. -/
structure Reactor (T : Type) where
  cells : List (Cell T)
  curCallbackId : Nat

variable {T : Type} [Inhabited T] [DecidableEq T]

/-- Rust `Cell::value`: the cached value of a cell. -/
def Cell.value : Cell T → T
  | .input v => v
  | .computed _ _ v _ => v

/-- Rust `Reactor::new`. -/
def Reactor.new : Reactor T := ⟨[], 0⟩

/-- Rust `Reactor::value`: the cached value of the cell, or `none` if the id is
unknown.  A pure read. -/
def Reactor.value (r : Reactor T) (id : Nat) : Option T :=
  (r.cells[id]?).map Cell.value

/-- The value of a cell, defaulting when the id is unknown (models the
`unwrap`ed reads on ids known to exist). -/
def Reactor.valueAt (r : Reactor T) (id : Nat) : T :=
  (r.value id).getD default

/-- Overwriting the cell stored at an index (a write through
`node_weight_mut`). -/
def Reactor.setCell (r : Reactor T) (id : Nat) (c : Cell T) : Reactor T :=
  ⟨r.cells.set id c, r.curCallbackId⟩

/-- The ordered dependency list of the cell at an index (empty for input or
missing cells). -/
def Reactor.depsOf (r : Reactor T) (id : Nat) : List Nat :=
  match r.cells[id]? with
  | some (.computed deps _ _ _) => deps
  | _ => []

/-- The registered callback ids of the cell at an index (empty for input or
missing cells). -/
def Reactor.getCbs (r : Reactor T) (id : Nat) : List Nat :=
  match r.cells[id]? with
  | some (.computed _ _ _ cbs) => cbs
  | _ => []

/-- Rust `Reactor::create_input`: append a fresh input cell, returning its id. -/
def Reactor.create_input (r : Reactor T) (initial : T) : Reactor T × Nat :=
  (⟨r.cells ++ [.input initial], r.curCallbackId⟩, r.cells.length)

/-- Rust `Reactor::create_compute`: validate that every dependency exists
(reporting the full list of missing ids on failure), then evaluate the
function on the dependencies' current values in declared order, append the
new computed cell, and record one edge per dependency. -/
def Reactor.create_compute (r : Reactor T) (dependencies : List Nat)
    (compute_func : List T → T) : Reactor T × Except ReactError Nat :=
  let missing_deps := dependencies.filter (fun dep => (r.cells[dep]?).isNone)
  if missing_deps.length > 0 then
    (r, .error (.MissingDepedencies missing_deps))
  else
    let dependant_values := dependencies.map (fun id => (r.value id).getD default)
    let value := compute_func dependant_values
    (⟨r.cells ++ [.computed dependencies compute_func value []], r.curCallbackId⟩,
      .ok r.cells.length)

/-- The outgoing (dependency) edge list of a cell: pairs of edge weight
(argument position) and target cell, in insertion order. -/
def Reactor.edgesOut (r : Reactor T) (id : Nat) : List (Nat × Nat) :=
  (r.depsOf id).enum

/-- Insertion into a key-sorted association list: the model of
`BTreeMap::insert`. -/
def btreeInsert (m : List (Nat × T)) (k : Nat) (v : T) : List (Nat × T) :=
  match m with
  | [] => [(k, v)]
  | (k', v') :: rest =>
    if k < k' then (k, v) :: (k', v') :: rest
    else if k = k' then (k, v) :: rest
    else (k', v') :: btreeInsert rest k v

/-- Gathering dependency values from a list of (weight, target) edges as
`compute_cell_shallow` does: insert each target's current value into a
`BTreeMap` keyed by the edge weight, then read the values out in key order. -/
def Reactor.gatherFrom (r : Reactor T) (es : List (Nat × Nat)) : List T :=
  (es.foldl (fun m e => btreeInsert m e.1 (r.valueAt e.2)) []).map (fun p => p.2)

/-- Rust `Reactor::compute_cell_shallow`: recompute one cell's cached value from
its dependencies' current values (a no-op returning the stored value for an
input cell), returning the updated reactor and the fresh value. -/
def Reactor.compute_cell_shallow (r : Reactor T) (id : Nat) :
    Except ReactError (Reactor T × T) :=
  let dependency_values := r.gatherFrom (r.edgesOut id)
  match r.cells[id]? with
  | none => .error (.MissingCell id)
  | some (.input v) => .ok (r, v)
  | some (.computed deps f _ cbs) =>
    let v := f dependency_values
    .ok (r.setCell id (.computed deps f v cbs), v)

/-- The incoming-edge walk of `neighbors_directed(id, Incoming)`: the cells
holding a dependency edge into `id`, one occurrence per edge. -/
def Reactor.incoming (r : Reactor T) (id : Nat) : List Nat :=
  (List.range r.cells.length).flatMap
    (fun c => ((r.depsOf c).filter (fun d => d = id)).map (fun _ => c))

/-- Rust `HashSet::insert` on a duplicate-free list. -/
def hinsert (s : List Nat) (x : Nat) : List Nat :=
  if x ∈ s then s else s ++ [x]

/-- Rust `HashSet::extend` on duplicate-free lists. -/
def hunion (s : List Nat) (t : List Nat) : List Nat :=
  t.foldl hinsert s

/-- Rust `Reactor::find_deep_dependencies_on`, fuelled: for each incoming
neighbour, insert it and the recursively found dependents into the set. -/
def Reactor.findDeepF (r : Reactor T) : Nat → Nat → List Nat
  | 0, _ => []
  | fuel + 1, id =>
    (r.incoming id).foldl (fun set dep => hunion (hinsert set dep) (r.findDeepF fuel dep)) []

/-- Rust `Reactor::find_deep_dependencies_on`: all cells depending on `id`,
directly or indirectly. -/
def Reactor.find_deep_dependencies_on (r : Reactor T) (id : Nat) : List Nat :=
  r.findDeepF r.cells.length id

/-- Running a step function over a worklist, threading the reactor,
concatenating the traces, and stopping at the first error (this is the shape
of the `while let Some(dep) = walker.next_node(..)` loop bodies combined with
the `?` operator). -/
def stepList (step : Reactor T → Nat → Except ReactError (Reactor T × List Nat)) :
    Reactor T → List Nat → Except ReactError (Reactor T × List Nat)
  | r, [] => .ok (r, [])
  | r, d :: ds =>
    match step r d with
    | .error e => .error e
    | .ok (r1, tr) =>
      match stepList step r1 ds with
      | .error e => .error e
      | .ok (r2, tr') => .ok (r2, tr ++ tr')

/-- Rust `Reactor::update_dependants`, fuelled: recompute the given cell, then
recursively update the cells that depend on it, one recursive call per
incoming edge.  Also returns the trace of cells passed to
`compute_cell_shallow`, in order. -/
def Reactor.updateOneF : Nat → Reactor T → Nat → Except ReactError (Reactor T × List Nat)
  | 0, r, _ => .ok (r, [])
  | fuel + 1, r, id =>
    match r.compute_cell_shallow id with
    | .error e => .error e
    | .ok (r1, _) =>
      match stepList (fun r' d => Reactor.updateOneF fuel r' d) r1 (r1.incoming id) with
      | .error e => .error e
      | .ok (r2, tr) => .ok (r2, id :: tr)

/-- Rust `Reactor::update_dependants`: recompute the given cell and, recursively,
every cell that depends on it, path by path. -/
def Reactor.update_dependants (r : Reactor T) (id : Nat) :
    Except ReactError (Reactor T × List Nat) :=
  Reactor.updateOneF (r.cells.length + 1) r id

/-- One observable callback invocation: which callback of which cell was
called, and with what argument. -/
structure CbEvent (T : Type) where
  cell : Nat
  cb : Nat
  val : T
  deriving DecidableEq

/-- Rust `Reactor::invoke_callback`: fire every callback registered on a computed
cell, passing the cell's current value; the result is the list of invocation
events. -/
def Reactor.invoke_callback (r : Reactor T) (id : Nat) :
    Except ReactError (List (CbEvent T)) :=
  match r.cells[id]? with
  | none => .error (.MissingCell id)
  | some (.input _) => .error (.ExpectedComputedCell id)
  | some (.computed _ _ v cbs) => .ok (cbs.map (fun cb => ⟨id, cb, v⟩))

/-- Invoking the callbacks of a list of cells in order, stopping at the first
error (`collect::<Result<_, _>>` short-circuits); events already emitted
before the error are kept, since those invocations did happen. -/
def Reactor.invokeAll (r : Reactor T) : List Nat → List (CbEvent T) × Option ReactError
  | [] => ([], none)
  | d :: ds =>
    match r.invoke_callback d with
    | .error e => ([], some e)
    | .ok evs =>
      let (rest, err) := r.invokeAll ds
      (evs ++ rest, err)

/-- Rust `Reactor::set_value`: reject unknown or computed ids; otherwise store the
new value, compute the affected set, snapshot its values, propagate with
`update_dependants`, snapshot again, and fire the callbacks of every affected
cell whose value changed, passing its final value. -/
def Reactor.set_value (r : Reactor T) (id : Nat) (new_value : T) :
    Reactor T × List (CbEvent T) × Except ReactError Unit :=
  match r.cells[id]? with
  | none => (r, [], .error (.MissingCell id))
  | some (.computed _ _ _ _) => (r, [], .error (.ExpectedInputCell id))
  | some (.input _) =>
    let r1 := r.setCell id (.input new_value)
    let affected_cells := r1.find_deep_dependencies_on id
    let values_before_set := affected_cells.map (fun dep => (dep, r1.valueAt dep))
    match r1.update_dependants id with
    | .error e => (r1, [], .error e)
    | .ok (r2, _) =>
      let changed := affected_cells.filter
        (fun node => !((values_before_set.lookup node).getD default = r2.valueAt node))
      match r2.invokeAll changed with
      | (evs, none) => (r2, evs, .ok ())
      | (evs, some e) => (r2, evs, .error e)

/-- Rust `Reactor::add_callback`: fails on a missing or input cell; otherwise
registers the callback under the next fresh id and returns that id. -/
def Reactor.add_callback (r : Reactor T) (cell : Nat) :
    Reactor T × Except ReactError Nat :=
  match r.cells[cell]? with
  | none => (r, .error (.MissingCell cell))
  | some (.input _) => (r, .error (.ExpectedComputedCell cell))
  | some (.computed deps f v cbs) =>
    (⟨r.cells.set cell (.computed deps f v (cbs ++ [r.curCallbackId])), r.curCallbackId + 1⟩,
      .ok r.curCallbackId)

/-- Rust `Reactor::remove_callback`: fails on a missing cell, an input cell, or an
unregistered callback id; otherwise deletes the registration. -/
def Reactor.remove_callback (r : Reactor T) (cell : Nat) (callback : Nat) :
    Reactor T × Except ReactError Unit :=
  match r.cells[cell]? with
  | none => (r, .error (.MissingCell cell))
  | some (.input _) => (r, .error (.ExpectedComputedCell cell))
  | some (.computed deps f v cbs) =>
    if callback ∈ cbs then
      (⟨r.cells.set cell (.computed deps f v (cbs.filter (fun c => c ≠ callback))), r.curCallbackId⟩,
        .ok ())
    else
      (r, .error (.CallbackDoesntExist callback))

/-! ## Specification-level definitions -/

/-- The shape of a cell: its kind, dependency list, compute function and
callbacks, with the cached value erased.  Propagation rewrites only values,
never shapes. -/
def Cell.shape : Cell T → Cell T
  | .input _ => .input default
  | .computed deps f _ cbs => .computed deps f default cbs

/-- The skeleton of a cell: its shape together with the stored value when the
cell is an input cell (the propagator rewrites only computed cells'
values). -/
def Cell.skel : Cell T → Cell T
  | .input v => .input v
  | .computed deps f _ cbs => .computed deps f default cbs

/-- Two reactors with identical graph structure (cell kinds, dependency
edges, compute functions, callbacks); cached values may differ, as may input
values. -/
def SameShape (r r' : Reactor T) : Prop :=
  r.cells.map Cell.shape = r'.cells.map Cell.shape

/-- Two reactors with identical structure and identical input-cell values;
only computed cells' cached values may differ. -/
def SameSkel (r r' : Reactor T) : Prop :=
  r.cells.map Cell.skel = r'.cells.map Cell.skel

/-- A single dependency edge: cell `c` lists cell `d` among its
dependencies. -/
def DepEdge (r : Reactor T) (c d : Nat) : Prop :=
  d ∈ r.depsOf c

/-- Relation `Reaches r c d`: `c` depends on `d` through a (possibly empty) chain of
dependency edges. -/
def Reaches (r : Reactor T) : Nat → Nat → Prop :=
  Relation.ReflTransGen (DepEdge r)

/-- The cells that reach some cell of the worklist `l` through dependency
edges: the region a worklist propagation may touch. -/
def upsetL (r : Reactor T) (l : List Nat) (c : Nat) : Prop :=
  ∃ d ∈ l, Reaches r c d

/-- Reference (from-scratch) evaluation of a cell, fuelled: an input cell
evaluates to its stored value, a computed cell to its function applied to its
dependencies' reference values. -/
def Reactor.evalF (r : Reactor T) : Nat → Nat → T
  | 0, _ => default
  | fuel + 1, i =>
    match r.cells[i]? with
    | some (.input v) => v
    | some (.computed deps f _ _) => f (deps.map (r.evalF fuel))
    | none => default

/-- Reference evaluation of a cell (with always-sufficient fuel under
`WF`). -/
def Reactor.eval (r : Reactor T) (i : Nat) : T :=
  r.evalF (i + 1) i

/-- Cell `c` holds its reference value (it is fully up to date). -/
def Done (r : Reactor T) (c : Nat) : Prop :=
  r.valueAt c = r.eval c

/-- The acyclicity-by-construction invariant: every dependency of a cell has
a strictly smaller index (a computed cell can only reference cells that
already existed when it was created). -/
def WF (r : Reactor T) : Prop :=
  ∀ i, ∀ d ∈ r.depsOf i, d < i

/-- Every cell's callback list is duplicate-free. -/
def CbNodup (r : Reactor T) : Prop :=
  ∀ i, (r.getCbs i).Nodup

/-- Every registered callback id is below the callback-id counter. -/
def CbBound (r : Reactor T) : Prop :=
  ∀ i, ∀ cb ∈ r.getCbs i, cb < r.curCallbackId

/-- The structural invariants every reachable reactor satisfies. -/
structure Inv (r : Reactor T) : Prop where
  wf : WF r
  cbNodup : CbNodup r
  cbBound : CbBound r

/-- The consistency property of one cell: a computed cell's cached value
equals its function applied to its dependencies' current cached values. -/
def ConsistentAt (r : Reactor T) (i : Nat) : Prop :=
  ∀ deps f v cbs, r.cells[i]? = some (.computed deps f v cbs) →
    v = f (deps.map r.valueAt)

/-- The global consistency invariant: no computed cell is stale. -/
def Consistent (r : Reactor T) : Prop :=
  ∀ i, ConsistentAt r i

/-- One public operation of the reactor, as a transition on reactor states
(the state component of each operation's result, whether or not the
operation reported an error). -/
inductive Step : Reactor T → Reactor T → Prop where
  | create_input (r : Reactor T) (v : T) : Step r (r.create_input v).1
  | create_compute (r : Reactor T) (deps : List Nat) (f : List T → T) :
      Step r (r.create_compute deps f).1
  | set_value (r : Reactor T) (id : Nat) (v : T) : Step r (r.set_value id v).1
  | add_callback (r : Reactor T) (c : Nat) : Step r (r.add_callback c).1
  | remove_callback (r : Reactor T) (c cb : Nat) : Step r (r.remove_callback c cb).1

/-- Reactor states reachable from `Reactor::new` by public operations. -/
def Reachable (r : Reactor T) : Prop :=
  Relation.ReflTransGen Step Reactor.new r

/-- A concrete diamond-shaped reactor: cell 0 an input holding 1, cells 1 and
2 computed copies of cell 0, cell 3 the sum of cells 1 and 2. -/
def diamond : Reactor Int :=
  let r := (Reactor.new.create_input 1).1
  let r := (r.create_compute [0] (fun l => l.foldl (· + ·) 0)).1
  let r := (r.create_compute [0] (fun l => l.foldl (· + ·) 0)).1
  (r.create_compute [1, 2] (fun l => l.foldl (· + ·) 0)).1

/-- A directly-built reactor whose computed cell's cache (99) disagrees with
recomputation from its dependency (an input holding 1): used to observe that
`value` reads the cache and never recomputes. -/
def staleReactor : Reactor Int :=
  ⟨[.input 1, .computed [0] (fun l => l.foldl (· + ·) 0) 99 []], 0⟩

/-- A reactor with an input cell 0 holding 1, a computed cell 1 summing cell
0, and one callback (id 0) registered on cell 1. -/
def cbReactor : Reactor Int :=
  (((Reactor.new.create_input 1).1.create_compute [0]
    (fun l => l.foldl (· + ·) 0)).1.add_callback 1).1

/-- Reactor `cbReactor` with a second callback (id 1) registered on cell 1. -/
def cb2Reactor : Reactor Int :=
  (cbReactor.add_callback 1).1

/-- The specification of one propagation step on a single cell `d` (used for
`updateOneF` at a given fuel): it succeeds, preserves the skeleton and the
callback counter, touches only cells that depend on `d`, traces exactly the
cells that reach `d`, and brings every such cell up to date provided the
cells outside the touched region were already up to date. -/
def UpdSpec (n : Nat)
    (step : Reactor T → Nat → Except ReactError (Reactor T × List Nat))
    (fuel : Nat) : Prop :=
  ∀ r d, WF r → r.cells.length = n → d < n → n - d ≤ fuel →
    ∃ r' tr, step r d = .ok (r', tr) ∧
      SameSkel r r' ∧
      r'.curCallbackId = r.curCallbackId ∧
      (∀ c, ¬ Reaches r c d → r'.cells[c]? = r.cells[c]?) ∧
      (∀ c ∈ tr, Reaches r c d) ∧
      (∀ c, Reaches r c d → c ∈ tr) ∧
      (∀ c, Reaches r c d →
        (∀ e, Relation.TransGen (DepEdge r) c e → ¬ Reaches r e d → Done r e) →
        Done r' c)

/-! ## Basic lemmas -/

lemma list_set_of_getElem? {α : Type _} (l : List α) (i : Nat) (a : α)
    (h : l[i]? = some a) : l.set i a = l := by
  induction l generalizing i with
  | nil => simp at h
  | cons x xs ih =>
    cases i with
    | zero => simp_all
    | succ j => simp only [List.getElem?_cons_succ] at h; simp [ih j h]

lemma lookup_map_self (l : List Nat) (g : Nat → T) (c : Nat) (hc : c ∈ l) :
    (l.map (fun d => (d, g d))).lookup c = some (g c) := by
  induction l with
  | nil => simp at hc
  | cons x xs ih =>
    by_cases hx : c = x
    · subst hx; simp [List.lookup]
    · have hm : c ∈ xs := by
        rcases List.mem_cons.mp hc with h | h
        · exact absurd h hx
        · exact h
      simp only [List.map_cons, List.lookup_cons, beq_false_of_ne hx]
      exact ih hm

@[simp] lemma setCell_cells (r : Reactor T) (id : Nat) (c : Cell T) :
    (r.setCell id c).cells = r.cells.set id c := rfl

@[simp] lemma setCell_cur (r : Reactor T) (id : Nat) (c : Cell T) :
    (r.setCell id c).curCallbackId = r.curCallbackId := rfl

@[simp] lemma setCell_length (r : Reactor T) (id : Nat) (c : Cell T) :
    (r.setCell id c).cells.length = r.cells.length := by
  simp

lemma setCell_get_self (r : Reactor T) (id : Nat) (c : Cell T)
    (h : id < r.cells.length) : (r.setCell id c).cells[id]? = some c := by
  simp [List.getElem?_set_self h]

lemma setCell_get_ne (r : Reactor T) (id j : Nat) (c : Cell T) (h : id ≠ j) :
    (r.setCell id c).cells[j]? = r.cells[j]? := by
  simp [List.getElem?_set_ne h]

lemma value_def (r : Reactor T) (id : Nat) :
    r.value id = (r.cells[id]?).map Cell.value := rfl

lemma valueAt_def (r : Reactor T) (id : Nat) :
    r.valueAt id = ((r.cells[id]?).map Cell.value).getD default := by
  simp [Reactor.valueAt, value_def]

lemma valueAt_of_get (r : Reactor T) {id : Nat} {c : Cell T}
    (h : r.cells[id]? = some c) : r.valueAt id = c.value := by
  simp [valueAt_def, h]

lemma depsOf_def (r : Reactor T) (id : Nat) :
    r.depsOf id = match r.cells[id]? with
      | some (.computed deps _ _ _) => deps
      | _ => [] := rfl

lemma getCbs_def (r : Reactor T) (id : Nat) :
    r.getCbs id = match r.cells[id]? with
      | some (.computed _ _ _ cbs) => cbs
      | _ => [] := rfl

lemma get_none_of_length_le (r : Reactor T) {id : Nat}
    (h : r.cells.length ≤ id) : r.cells[id]? = none :=
  List.getElem?_eq_none h

lemma lt_length_of_get_some (r : Reactor T) {id : Nat} {c : Cell T}
    (h : r.cells[id]? = some c) : id < r.cells.length := by
  by_contra hlt
  rw [get_none_of_length_le r (Nat.le_of_not_lt hlt)] at h
  exact Option.noConfusion h

lemma depsOf_ne_nil_computed (r : Reactor T) {id : Nat}
    (h : r.depsOf id ≠ []) :
    ∃ deps f v cbs, r.cells[id]? = some (.computed deps f v cbs) ∧ r.depsOf id = deps := by
  rw [depsOf_def] at h ⊢
  match hg : r.cells[id]? with
  | none => simp [hg] at h
  | some (.input v) => simp [hg] at h
  | some (.computed deps f v cbs) => exact ⟨deps, f, v, cbs, rfl, by simp [hg]⟩

/-! ### Shape and skeleton machinery -/

lemma shape_skel (c : Cell T) : Cell.shape (Cell.skel c) = Cell.shape c := by
  cases c <;> rfl

lemma SameShape.shape_rfl (r : Reactor T) : SameShape r r := rfl

lemma SameShape.shape_trans {r₁ r₂ r₃ : Reactor T} (h₁ : SameShape r₁ r₂)
    (h₂ : SameShape r₂ r₃) : SameShape r₁ r₃ := Eq.trans h₁ h₂

lemma SameShape.shape_symm {r₁ r₂ : Reactor T} (h : SameShape r₁ r₂) : SameShape r₂ r₁ :=
  Eq.symm h

lemma SameSkel.skel_rfl (r : Reactor T) : SameSkel r r := rfl

lemma SameSkel.skel_trans {r₁ r₂ r₃ : Reactor T} (h₁ : SameSkel r₁ r₂)
    (h₂ : SameSkel r₂ r₃) : SameSkel r₁ r₃ := Eq.trans h₁ h₂

lemma SameSkel.skel_symm {r₁ r₂ : Reactor T} (h : SameSkel r₁ r₂) : SameSkel r₂ r₁ :=
  Eq.symm h

lemma SameSkel.toShape {r₁ r₂ : Reactor T} (h : SameSkel r₁ r₂) : SameShape r₁ r₂ := by
  unfold SameShape
  have h₁ : r₁.cells.map Cell.shape = (r₁.cells.map Cell.skel).map Cell.shape := by
    rw [List.map_map]; exact (List.map_congr_left (fun c _ => (shape_skel c).symm))
  have h₂ : r₂.cells.map Cell.shape = (r₂.cells.map Cell.skel).map Cell.shape := by
    rw [List.map_map]; exact (List.map_congr_left (fun c _ => (shape_skel c).symm))
  rw [h₁, h₂, h]

lemma SameShape.length_eq {r₁ r₂ : Reactor T} (h : SameShape r₁ r₂) :
    r₁.cells.length = r₂.cells.length := by
  have := congrArg List.length h
  simpa using this

lemma SameShape.get_shape {r₁ r₂ : Reactor T} (h : SameShape r₁ r₂) (i : Nat) :
    (r₁.cells[i]?).map Cell.shape = (r₂.cells[i]?).map Cell.shape := by
  rw [← List.getElem?_map, ← List.getElem?_map, h]

lemma SameSkel.get_skel {r₁ r₂ : Reactor T} (h : SameSkel r₁ r₂) (i : Nat) :
    (r₁.cells[i]?).map Cell.skel = (r₂.cells[i]?).map Cell.skel := by
  rw [← List.getElem?_map, ← List.getElem?_map, h]

lemma SameShape.depsOf_eq {r₁ r₂ : Reactor T} (h : SameShape r₁ r₂) (i : Nat) :
    r₁.depsOf i = r₂.depsOf i := by
  have hg := h.get_shape i
  rw [depsOf_def, depsOf_def]
  match h₁ : r₁.cells[i]?, h₂ : r₂.cells[i]? with
  | none, none => rfl
  | none, some c => simp [h₁, h₂] at hg
  | some c, none => simp [h₁, h₂] at hg
  | some c, some c' =>
    simp only [h₁, h₂, Option.map_some'] at hg
    cases c <;> cases c' <;> simp [Cell.shape] at hg ⊢
    exact hg.1

lemma SameShape.getCbs_eq {r₁ r₂ : Reactor T} (h : SameShape r₁ r₂) (i : Nat) :
    r₁.getCbs i = r₂.getCbs i := by
  have hg := h.get_shape i
  rw [getCbs_def, getCbs_def]
  match h₁ : r₁.cells[i]?, h₂ : r₂.cells[i]? with
  | none, none => rfl
  | none, some c => simp [h₁, h₂] at hg
  | some c, none => simp [h₁, h₂] at hg
  | some c, some c' =>
    simp only [h₁, h₂, Option.map_some'] at hg
    cases c <;> cases c' <;> simp [Cell.shape] at hg ⊢
    exact hg.2.2

lemma SameShape.computed_iff {r₁ r₂ : Reactor T} (h : SameShape r₁ r₂) (i : Nat)
    {deps : List Nat} {f : List T → T} {v : T} {cbs : List Nat}
    (hc : r₁.cells[i]? = some (.computed deps f v cbs)) :
    ∃ v', r₂.cells[i]? = some (.computed deps f v' cbs) := by
  have hg := h.get_shape i
  rw [hc] at hg
  match h₂ : r₂.cells[i]? with
  | none => simp [h₂] at hg
  | some (.input w) => simp [h₂, Cell.shape] at hg
  | some (.computed deps' f' v' cbs') =>
    rw [h₂] at hg
    simp only [Option.map_some', Cell.shape, Cell.computed.injEq] at hg
    obtain ⟨hd, hf, -, hcb⟩ := hg
    exact ⟨v', rfl⟩

lemma SameShape.input_iff {r₁ r₂ : Reactor T} (h : SameShape r₁ r₂) (i : Nat)
    {v : T} (hc : r₁.cells[i]? = some (.input v)) :
    ∃ v', r₂.cells[i]? = some (.input v') := by
  have hg := h.get_shape i
  rw [hc] at hg
  match h₂ : r₂.cells[i]? with
  | none => simp [h₂] at hg
  | some (.input w) => exact ⟨w, rfl⟩
  | some (.computed deps' f' v' cbs') => rw [h₂] at hg; simp [Cell.shape] at hg

lemma SameSkel.input_val {r₁ r₂ : Reactor T} (h : SameSkel r₁ r₂) (i : Nat)
    {v : T} (hc : r₁.cells[i]? = some (.input v)) :
    r₂.cells[i]? = some (.input v) := by
  have hg := h.get_skel i
  rw [hc] at hg
  match h₂ : r₂.cells[i]? with
  | none => simp [h₂] at hg
  | some (.input w) =>
    rw [h₂] at hg
    simp only [Option.map_some', Cell.skel, Cell.input.injEq] at hg
    rw [hg]
  | some (.computed deps' f' v' cbs') => rw [h₂] at hg; simp [Cell.skel] at hg

lemma SameShape.depEdge_eq {r₁ r₂ : Reactor T} (h : SameShape r₁ r₂) :
    DepEdge r₁ = DepEdge r₂ := by
  funext c d
  unfold DepEdge
  rw [h.depsOf_eq c]

lemma SameShape.reaches_eq {r₁ r₂ : Reactor T} (h : SameShape r₁ r₂) :
    Reaches r₁ = Reaches r₂ := by
  unfold Reaches
  rw [h.depEdge_eq]

lemma SameShape.wf_iff {r₁ r₂ : Reactor T} (h : SameShape r₁ r₂) :
    WF r₁ ↔ WF r₂ := by
  unfold WF
  constructor <;> intro hwf i d hd
  · exact hwf i d ((h.depsOf_eq i) ▸ hd)
  · exact hwf i d ((h.depsOf_eq i).symm ▸ hd)

lemma sameSkel_setCell_computed {r : Reactor T} {id : Nat} {deps : List Nat}
    {f : List T → T} {v : T} {cbs : List Nat} (w : T)
    (h : r.cells[id]? = some (.computed deps f v cbs)) :
    SameSkel r (r.setCell id (.computed deps f w cbs)) := by
  unfold SameSkel
  rw [setCell_cells, List.map_set]
  have hskel : (r.cells.map Cell.skel)[id]? = some (Cell.skel (.computed deps f w cbs)) := by
    rw [List.getElem?_map, h]; rfl
  rw [list_set_of_getElem? _ _ _ hskel]

lemma sameShape_setCell_input {r : Reactor T} {id : Nat} {w : T} (v : T)
    (h : r.cells[id]? = some (.input w)) :
    SameShape r (r.setCell id (.input v)) := by
  unfold SameShape
  rw [setCell_cells, List.map_set]
  have hshape : (r.cells.map Cell.shape)[id]? = some (Cell.shape (.input v)) := by
    rw [List.getElem?_map, h]; rfl
  rw [list_set_of_getElem? _ _ _ hshape]

/-! ### Dependency-order lemmas -/

lemma depEdge_lt {r : Reactor T} (hwf : WF r) {c d : Nat} (h : DepEdge r c d) :
    d < c := hwf c d h

lemma depEdge_src_lt_length {r : Reactor T} {c d : Nat} (h : DepEdge r c d) :
    c < r.cells.length := by
  unfold DepEdge at h
  have hne : r.depsOf c ≠ [] := by intro hnil; rw [hnil] at h; exact absurd h (List.not_mem_nil d)
  obtain ⟨deps, f, v, cbs, hg, -⟩ := depsOf_ne_nil_computed r hne
  exact lt_length_of_get_some r hg

lemma depEdge_computed {r : Reactor T} {c d : Nat} (h : DepEdge r c d) :
    ∃ deps f v cbs, r.cells[c]? = some (.computed deps f v cbs) ∧ d ∈ deps := by
  unfold DepEdge at h
  have hne : r.depsOf c ≠ [] := by intro hnil; rw [hnil] at h; exact absurd h (List.not_mem_nil d)
  obtain ⟨deps, f, v, cbs, hg, hdeps⟩ := depsOf_ne_nil_computed r hne
  exact ⟨deps, f, v, cbs, hg, hdeps ▸ h⟩

lemma reaches_le {r : Reactor T} (hwf : WF r) {c d : Nat} (h : Reaches r c d) :
    d ≤ c := by
  induction h with
  | refl => exact Nat.le_refl c
  | tail _ hstep ih => exact Nat.le_trans (Nat.le_of_lt (depEdge_lt hwf hstep)) ih

lemma transGen_lt {r : Reactor T} (hwf : WF r) {c d : Nat}
    (h : Relation.TransGen (DepEdge r) c d) : d < c := by
  induction h with
  | single hstep => exact depEdge_lt hwf hstep
  | tail _ hstep ih => exact Nat.lt_trans (depEdge_lt hwf hstep) ih

lemma reaches_cases {r : Reactor T} {c d : Nat} (h : Reaches r c d) :
    c = d ∨ Relation.TransGen (DepEdge r) c d := by
  rcases Relation.ReflTransGen.cases_head h with heq | ⟨b, hb, hbd⟩
  · exact Or.inl heq
  · exact Or.inr (Relation.TransGen.head'_iff.mpr ⟨b, hb, hbd⟩)

lemma transGen_src_computed {r : Reactor T} {c d : Nat}
    (h : Relation.TransGen (DepEdge r) c d) :
    ∃ deps f v cbs, r.cells[c]? = some (.computed deps f v cbs) := by
  rcases Relation.TransGen.head'_iff.mp h with ⟨b, hb, -⟩
  obtain ⟨deps, f, v, cbs, hg, -⟩ := depEdge_computed hb
  exact ⟨deps, f, v, cbs, hg⟩

lemma mem_incoming {r : Reactor T} {id x : Nat} :
    x ∈ r.incoming id ↔ DepEdge r x id := by
  unfold Reactor.incoming
  rw [List.mem_flatMap]
  constructor
  · rintro ⟨a, -, hmem⟩
    rcases List.mem_map.mp hmem with ⟨d, hd, rfl⟩
    rcases List.mem_filter.mp hd with ⟨hdeps, heq⟩
    have : d = id := by simpa using heq
    exact this ▸ hdeps
  · intro h
    refine ⟨x, List.mem_range.mpr (depEdge_src_lt_length h), List.mem_map.mpr ⟨id, ?_, rfl⟩⟩
    exact List.mem_filter.mpr ⟨h, by simp⟩

/-! ### BTreeMap gather lemmas -/

lemma btreeInsert_comm (k₁ k₂ : Nat) (v₁ v₂ : T) (h : k₁ ≠ k₂) (m : List (Nat × T)) :
    btreeInsert (btreeInsert m k₁ v₁) k₂ v₂ = btreeInsert (btreeInsert m k₂ v₂) k₁ v₁ := by
  induction m with
  | nil =>
    simp only [btreeInsert]
    split_ifs <;> first | rfl | omega
  | cons p rest ih =>
    obtain ⟨k', v'⟩ := p
    simp only [btreeInsert]
    split_ifs <;> simp_all [btreeInsert] <;> split_ifs <;> first | rfl | omega | simp_all

lemma keys_nodup_inj {es : List (Nat × Nat)} (h : (es.map Prod.fst).Nodup)
    {x y : Nat × Nat} (hx : x ∈ es) (hy : y ∈ es) (hk : x.1 = y.1) : x = y := by
  induction es with
  | nil => simp at hx
  | cons e rest ih =>
    simp only [List.map_cons, List.nodup_cons] at h
    rcases List.mem_cons.mp hx with rfl | hx' <;> rcases List.mem_cons.mp hy with rfl | hy'
    · rfl
    · have : x.1 ∈ List.map Prod.fst rest := by
        rw [hk]; exact List.mem_map.mpr ⟨y, hy', rfl⟩
      exact absurd this h.1
    · have : y.1 ∈ List.map Prod.fst rest := by
        rw [← hk]; exact List.mem_map.mpr ⟨x, hx', rfl⟩
      exact absurd this h.1
    · exact ih h.2 hx' hy'

lemma gatherFrom_perm (r : Reactor T) {es es' : List (Nat × Nat)} (hperm : es.Perm es')
    (hkeys : (es.map Prod.fst).Nodup) : r.gatherFrom es = r.gatherFrom es' := by
  unfold Reactor.gatherFrom
  congr 1
  refine hperm.foldl_eq' ?_ []
  intro x hx y hy z
  by_cases hxy : x = y
  · rw [hxy]
  · have hk : x.1 ≠ y.1 := fun hk => hxy (keys_nodup_inj hkeys hx hy hk)
    exact btreeInsert_comm x.1 y.1 _ _ hk z

lemma btreeInsert_append (m : List (Nat × T)) (k : Nat) (v : T)
    (hm : ∀ p ∈ m, p.1 < k) : btreeInsert m k v = m ++ [(k, v)] := by
  induction m with
  | nil => rfl
  | cons p rest ih =>
    obtain ⟨k', v'⟩ := p
    have hk : k' < k := hm (k', v') (List.mem_cons_self _ _)
    simp only [btreeInsert]
    rw [if_neg (by omega), if_neg (by omega), ih (fun p hp => hm p (List.mem_cons_of_mem _ hp))]
    rfl

lemma foldl_btree_enumFrom (r : Reactor T) (l : List Nat) :
    ∀ (j : Nat) (m : List (Nat × T)), (∀ p ∈ m, p.1 < j) →
    (List.enumFrom j l).foldl (fun m e => btreeInsert m e.1 (r.valueAt e.2)) m
      = m ++ (List.enumFrom j l).map (fun e => (e.1, r.valueAt e.2)) := by
  induction l with
  | nil => intro j m _; simp
  | cons d rest ih =>
    intro j m hm
    rw [List.enumFrom_cons]
    simp only [List.foldl_cons, List.map_cons]
    rw [btreeInsert_append m j _ hm]
    rw [ih (j + 1) (m ++ [(j, r.valueAt d)]) ?_]
    · rw [List.append_assoc]; rfl
    · intro p hp
      rcases List.mem_append.mp hp with h | h
      · exact Nat.lt_succ_of_lt (hm p h)
      · simp only [List.mem_singleton] at h
        rw [h]; exact Nat.lt_succ_self j

lemma gatherFrom_edgesOut (r : Reactor T) {id : Nat} {deps : List Nat}
    {f : List T → T} {v : T} {cbs : List Nat}
    (h : r.cells[id]? = some (.computed deps f v cbs)) :
    r.gatherFrom (r.edgesOut id) = deps.map r.valueAt := by
  have hdeps : r.depsOf id = deps := by rw [depsOf_def, h]
  unfold Reactor.gatherFrom Reactor.edgesOut
  rw [hdeps]
  have henum : deps.enum = List.enumFrom 0 deps := rfl
  rw [henum, foldl_btree_enumFrom r deps 0 [] (by simp)]
  rw [List.nil_append, List.map_map]
  have hcomp : ((fun p : Nat × T => p.2) ∘ (fun e : Nat × Nat => (e.1, r.valueAt e.2)))
      = r.valueAt ∘ Prod.snd := rfl
  rw [hcomp, ← List.map_map, List.enumFrom_map_snd]

lemma gatherFrom_perm_edgesOut (r : Reactor T) {id : Nat} {deps : List Nat}
    {f : List T → T} {v : T} {cbs : List Nat}
    (h : r.cells[id]? = some (.computed deps f v cbs))
    {es : List (Nat × Nat)} (hperm : es.Perm (r.edgesOut id)) :
    r.gatherFrom es = deps.map r.valueAt := by
  have hdeps : r.depsOf id = deps := by rw [depsOf_def, h]
  have hkeys : (es.map Prod.fst).Nodup := by
    have hp : (es.map Prod.fst).Perm ((r.edgesOut id).map Prod.fst) := hperm.map Prod.fst
    refine hp.nodup_iff.mpr ?_
    unfold Reactor.edgesOut
    rw [hdeps, List.enum_map_fst]
    exact List.nodup_range deps.length
  rw [gatherFrom_perm r hperm hkeys, gatherFrom_edgesOut r h]

/-! ### `compute_cell_shallow` specification -/

lemma compute_shallow_missing {r : Reactor T} {id : Nat} (h : r.cells[id]? = none) :
    r.compute_cell_shallow id = .error (.MissingCell id) := by
  unfold Reactor.compute_cell_shallow
  rw [h]

lemma compute_shallow_input {r : Reactor T} {id : Nat} {v : T}
    (h : r.cells[id]? = some (.input v)) :
    r.compute_cell_shallow id = .ok (r, v) := by
  unfold Reactor.compute_cell_shallow
  rw [h]

lemma compute_shallow_computed {r : Reactor T} {id : Nat} {deps : List Nat}
    {f : List T → T} {v : T} {cbs : List Nat}
    (h : r.cells[id]? = some (.computed deps f v cbs)) :
    r.compute_cell_shallow id =
      .ok (r.setCell id (.computed deps f (f (deps.map r.valueAt)) cbs),
        f (deps.map r.valueAt)) := by
  unfold Reactor.compute_cell_shallow
  rw [h, gatherFrom_edgesOut r h]

/-! ### Reference evaluation lemmas -/

lemma evalF_congr_fuel {r : Reactor T} (hwf : WF r) :
    ∀ i fuel₁ fuel₂, i < fuel₁ → i < fuel₂ → r.evalF fuel₁ i = r.evalF fuel₂ i := by
  intro i
  induction i using Nat.strong_induction_on with
  | _ i ih =>
    intro fuel₁ fuel₂ h₁ h₂
    obtain ⟨g₁, rfl⟩ : ∃ g, fuel₁ = g + 1 := ⟨fuel₁ - 1, by omega⟩
    obtain ⟨g₂, rfl⟩ : ∃ g, fuel₂ = g + 1 := ⟨fuel₂ - 1, by omega⟩
    simp only [Reactor.evalF]
    match hg : r.cells[i]? with
    | none => rfl
    | some (.input v) => rfl
    | some (.computed deps f v cbs) =>
      have hdeps : r.depsOf i = deps := by rw [depsOf_def, hg]
      show f (deps.map (r.evalF g₁)) = f (deps.map (r.evalF g₂))
      congr 1
      refine List.map_congr_left (fun d hd => ?_)
      have hdi : d < i := depEdge_lt hwf (show DepEdge r i d by rw [DepEdge, hdeps]; exact hd)
      exact ih d hdi g₁ g₂ (by omega) (by omega)

lemma evalF_eq_eval {r : Reactor T} (hwf : WF r) {i fuel : Nat} (h : i < fuel) :
    r.evalF fuel i = r.eval i :=
  evalF_congr_fuel hwf i fuel (i + 1) h (Nat.lt_succ_self i)

lemma eval_missing {r : Reactor T} {i : Nat} (h : r.cells[i]? = none) :
    r.eval i = default := by
  simp only [Reactor.eval, Reactor.evalF]
  rw [h]

lemma eval_input {r : Reactor T} {i : Nat} {v : T} (h : r.cells[i]? = some (.input v)) :
    r.eval i = v := by
  simp only [Reactor.eval, Reactor.evalF]
  rw [h]

lemma eval_computed {r : Reactor T} (hwf : WF r) {i : Nat} {deps : List Nat}
    {f : List T → T} {v : T} {cbs : List Nat}
    (h : r.cells[i]? = some (.computed deps f v cbs)) :
    r.eval i = f (deps.map r.eval) := by
  have hdeps : r.depsOf i = deps := by rw [depsOf_def, h]
  simp only [Reactor.eval, Reactor.evalF]
  rw [h]
  show f (deps.map (r.evalF i)) = f (deps.map r.eval)
  congr 1
  refine List.map_congr_left (fun d hd => ?_)
  have hdi : d < i := depEdge_lt hwf (show DepEdge r i d by rw [DepEdge, hdeps]; exact hd)
  exact evalF_eq_eval hwf hdi

lemma SameSkel.evalF_eq {r r' : Reactor T} (h : SameSkel r r') :
    ∀ fuel i, r.evalF fuel i = r'.evalF fuel i := by
  intro fuel
  induction fuel with
  | zero => intro i; rfl
  | succ g ih =>
    intro i
    have hg := h.get_skel i
    simp only [Reactor.evalF]
    match h₁ : r.cells[i]?, h₂ : r'.cells[i]? with
    | none, none => rfl
    | none, some c => rw [h₁, h₂] at hg; simp at hg
    | some c, none => rw [h₁, h₂] at hg; simp at hg
    | some (.input u), some (.input u') =>
      rw [h₁, h₂] at hg
      simp only [Option.map_some', Option.some.injEq, Cell.skel, Cell.input.injEq] at hg
      show u = u'
      exact hg
    | some (.input u), some (.computed deps' f' u' cbs') =>
      rw [h₁, h₂] at hg; simp [Cell.skel] at hg
    | some (.computed deps f u cbs), some (.input u') =>
      rw [h₁, h₂] at hg; simp [Cell.skel] at hg
    | some (.computed deps f u cbs), some (.computed deps' f' u' cbs') =>
      rw [h₁, h₂] at hg
      simp only [Option.map_some', Option.some.injEq, Cell.skel, Cell.computed.injEq] at hg
      show f (deps.map (r.evalF g)) = f' (deps'.map (r'.evalF g))
      rw [hg.1, hg.2.1]
      congr 1
      exact List.map_congr_left (fun d _ => ih d)

lemma SameSkel.eval_eq {r r' : Reactor T} (h : SameSkel r r') (i : Nat) :
    r.eval i = r'.eval i :=
  h.evalF_eq (i + 1) i

lemma eval_setInput_outside {r : Reactor T} {id : Nat} {w : T}
    (h : r.cells[id]? = some (.input w)) (v : T) :
    ∀ c, ¬ Reaches r c id → (r.setCell id (.input v)).eval c = r.eval c := by
  have aux : ∀ fuel c, ¬ Reaches r c id →
      (r.setCell id (.input v)).evalF fuel c = r.evalF fuel c := by
    intro fuel
    induction fuel with
    | zero => intro c _; rfl
    | succ g ih =>
      intro c hc
      have hne : id ≠ c := fun heq => hc (heq ▸ Relation.ReflTransGen.refl)
      have hget : (r.setCell id (.input v)).cells[c]? = r.cells[c]? := setCell_get_ne r id c _ hne
      simp only [Reactor.evalF]
      rw [hget]
      match hg : r.cells[c]? with
      | none => rfl
      | some (.input u) => rfl
      | some (.computed deps f u cbs) =>
        have hdeps : r.depsOf c = deps := by rw [depsOf_def, hg]
        show f (deps.map ((r.setCell id (.input v)).evalF g)) = f (deps.map (r.evalF g))
        congr 1
        refine List.map_congr_left (fun d hd => ?_)
        refine ih d (fun hreach => hc ?_)
        exact Relation.ReflTransGen.head (show DepEdge r c d by rw [DepEdge, hdeps]; exact hd) hreach
  intro c hc
  exact aux (c + 1) c hc

lemma valueAt_missing {r : Reactor T} {i : Nat} (h : r.cells[i]? = none) :
    r.valueAt i = default := by
  simp [valueAt_def, h]

lemma consistent_done {r : Reactor T} (hwf : WF r) (hcons : Consistent r) :
    ∀ c, Done r c := by
  intro c
  induction c using Nat.strong_induction_on with
  | _ c ih =>
    unfold Done
    match hg : r.cells[c]? with
    | none => rw [valueAt_missing hg, eval_missing hg]
    | some (.input v) => rw [valueAt_of_get r hg, eval_input hg]; rfl
    | some (.computed deps f v cbs) =>
      have hdeps : r.depsOf c = deps := by rw [depsOf_def, hg]
      rw [valueAt_of_get r hg, eval_computed hwf hg]
      show v = f (deps.map r.eval)
      rw [hcons c deps f v cbs hg]
      congr 1
      refine List.map_congr_left (fun d hd => ?_)
      have hdi : d < c := depEdge_lt hwf (show DepEdge r c d by rw [DepEdge, hdeps]; exact hd)
      exact ih d hdi

lemma done_consistent {r : Reactor T} (hwf : WF r) (hdone : ∀ c, Done r c) :
    Consistent r := by
  intro i deps f v cbs hg
  have hv : r.valueAt i = v := valueAt_of_get r hg
  have := hdone i
  unfold Done at this
  rw [hv, eval_computed hwf hg] at this
  rw [this]
  congr 1
  refine List.map_congr_left (fun d _ => ?_)
  exact (hdone d).symm

/-! ### `find_deep_dependencies_on` lemmas -/

lemma mem_hinsert {s : List Nat} {x y : Nat} : y ∈ hinsert s x ↔ y ∈ s ∨ y = x := by
  unfold hinsert
  split_ifs with h
  · constructor
    · exact Or.inl
    · rintro (hy | rfl)
      · exact hy
      · exact h
  · simp

lemma hinsert_nodup {s : List Nat} (h : s.Nodup) (x : Nat) : (hinsert s x).Nodup := by
  unfold hinsert
  split_ifs with hx
  · exact h
  · simpa [List.nodup_append] using ⟨h, hx⟩

lemma mem_hunion {s t : List Nat} {y : Nat} : y ∈ hunion s t ↔ y ∈ s ∨ y ∈ t := by
  induction t generalizing s with
  | nil => simp [hunion]
  | cons d ds ih =>
    show y ∈ hunion (hinsert s d) ds ↔ _
    rw [ih, mem_hinsert]
    simp [or_assoc]

lemma hunion_nodup {s : List Nat} (h : s.Nodup) (t : List Nat) : (hunion s t).Nodup := by
  induction t generalizing s with
  | nil => exact h
  | cons d ds ih => exact ih (hinsert_nodup h d)

lemma foldl_hins_mem (g : Nat → List Nat) (l : List Nat) :
    ∀ (init : List Nat) (y : Nat),
    (y ∈ l.foldl (fun s d => hunion (hinsert s d) (g d)) init ↔
      y ∈ init ∨ ∃ d ∈ l, y = d ∨ y ∈ g d) := by
  induction l with
  | nil => simp
  | cons d ds ih =>
    intro init y
    rw [List.foldl_cons, ih, mem_hunion, mem_hinsert]
    constructor
    · rintro (((hy | rfl) | hy) | ⟨d', hd', hcase⟩)
      · exact Or.inl hy
      · exact Or.inr ⟨y, List.mem_cons_self y ds, Or.inl rfl⟩
      · exact Or.inr ⟨d, List.mem_cons_self d ds, Or.inr hy⟩
      · exact Or.inr ⟨d', List.mem_cons_of_mem d hd', hcase⟩
    · rintro (hy | ⟨d', hd', hcase⟩)
      · exact Or.inl (Or.inl (Or.inl hy))
      · rcases List.mem_cons.mp hd' with rfl | hd2
        · rcases hcase with rfl | hy
          · exact Or.inl (Or.inl (Or.inr rfl))
          · exact Or.inl (Or.inr hy)
        · exact Or.inr ⟨d', hd2, hcase⟩

lemma foldl_hins_nodup (g : Nat → List Nat) (l : List Nat) :
    ∀ (init : List Nat), init.Nodup →
    (l.foldl (fun s d => hunion (hinsert s d) (g d)) init).Nodup := by
  induction l with
  | nil => exact fun init h => h
  | cons d ds ih =>
    intro init h
    exact ih _ (hunion_nodup (hinsert_nodup h d) _)

lemma foldl_hins_congr {g₁ g₂ : Nat → List Nat} {l : List Nat}
    (h : ∀ d ∈ l, g₁ d = g₂ d) :
    ∀ (init : List Nat),
    l.foldl (fun s d => hunion (hinsert s d) (g₁ d)) init
      = l.foldl (fun s d => hunion (hinsert s d) (g₂ d)) init := by
  induction l with
  | nil => intro init; rfl
  | cons d ds ih =>
    intro init
    rw [List.foldl_cons, List.foldl_cons, h d (List.mem_cons_self d ds)]
    exact ih (fun d' hd' => h d' (List.mem_cons_of_mem d hd')) _

lemma incoming_nil_of_ge {r : Reactor T} (hwf : WF r) {id : Nat}
    (h : r.cells.length ≤ id) : r.incoming id = [] := by
  rw [List.eq_nil_iff_forall_not_mem]
  intro x hx
  have hdep : DepEdge r x id := mem_incoming.mp hx
  have h1 : id < x := depEdge_lt hwf hdep
  have h2 : x < r.cells.length := depEdge_src_lt_length hdep
  omega

lemma findDeepF_nodup (r : Reactor T) (fuel id : Nat) : (r.findDeepF fuel id).Nodup := by
  cases fuel with
  | zero => exact List.nodup_nil
  | succ g => exact foldl_hins_nodup _ _ [] List.nodup_nil

lemma findDeepF_mem {r : Reactor T} (hwf : WF r) :
    ∀ fuel id, r.cells.length - id ≤ fuel →
    ∀ c, (c ∈ r.findDeepF fuel id ↔ Relation.TransGen (DepEdge r) c id) := by
  intro fuel
  induction fuel with
  | zero =>
    intro id hfuel c
    have hid : r.cells.length ≤ id := by omega
    simp only [Reactor.findDeepF, List.not_mem_nil, false_iff]
    intro htrans
    rcases Relation.TransGen.tail'_iff.mp htrans with ⟨b, -, hb⟩
    have h1 : id < b := depEdge_lt hwf hb
    have h2 : b < r.cells.length := depEdge_src_lt_length hb
    omega
  | succ g ih =>
    intro id hfuel c
    show c ∈ (r.incoming id).foldl _ [] ↔ _
    rw [foldl_hins_mem]
    simp only [List.not_mem_nil, false_or]
    constructor
    · rintro ⟨d, hd, rfl | hc⟩
      · exact Relation.TransGen.single (mem_incoming.mp hd)
      · have hdep : DepEdge r d id := mem_incoming.mp hd
        have h1 : id < d := depEdge_lt hwf hdep
        have h2 : d < r.cells.length := depEdge_src_lt_length hdep
        have htg := (ih d (by omega) c).mp hc
        exact Relation.TransGen.tail htg hdep
    · intro htrans
      rcases Relation.TransGen.tail'_iff.mp htrans with ⟨b, hcb, hb⟩
      have h1 : id < b := depEdge_lt hwf hb
      have h2 : b < r.cells.length := depEdge_src_lt_length hb
      refine ⟨b, mem_incoming.mpr hb, ?_⟩
      rcases reaches_cases hcb with rfl | htg
      · exact Or.inl rfl
      · exact Or.inr ((ih b (by omega) c).mpr htg)

lemma findDeepF_congr {r : Reactor T} (hwf : WF r) :
    ∀ fuel₁ fuel₂ id, r.cells.length - id ≤ fuel₁ → r.cells.length - id ≤ fuel₂ →
    r.findDeepF fuel₁ id = r.findDeepF fuel₂ id := by
  intro fuel₁
  induction fuel₁ with
  | zero =>
    intro fuel₂ id h₁ h₂
    have hid : r.cells.length ≤ id := by omega
    have hinc := incoming_nil_of_ge hwf hid
    cases fuel₂ with
    | zero => rfl
    | succ g₂ =>
      show r.findDeepF 0 id = (r.incoming id).foldl _ []
      rw [hinc]
      rfl
  | succ g₁ ih =>
    intro fuel₂ id h₁ h₂
    by_cases hid : r.cells.length ≤ id
    · have hinc := incoming_nil_of_ge hwf hid
      cases fuel₂ with
      | zero =>
        show (r.incoming id).foldl _ [] = r.findDeepF 0 id
        rw [hinc]
        rfl
      | succ g₂ =>
        show (r.incoming id).foldl _ [] = (r.incoming id).foldl _ []
        rw [hinc]
        rfl
    · have hlt : id < r.cells.length := Nat.lt_of_not_le hid
      obtain ⟨g₂, rfl⟩ : ∃ g, fuel₂ = g + 1 := ⟨fuel₂ - 1, by omega⟩
      show (r.incoming id).foldl _ [] = (r.incoming id).foldl _ []
      refine foldl_hins_congr (fun d hd => ?_) []
      have hdep : DepEdge r d id := mem_incoming.mp hd
      have hd1 : id < d := depEdge_lt hwf hdep
      have hd2 : d < r.cells.length := depEdge_src_lt_length hdep
      exact ih g₂ d (by omega) (by omega)

lemma mem_find_deep {r : Reactor T} (hwf : WF r) {id c : Nat} :
    c ∈ r.find_deep_dependencies_on id ↔ Relation.TransGen (DepEdge r) c id :=
  findDeepF_mem hwf r.cells.length id (Nat.sub_le _ _) c

lemma find_deep_nodup (r : Reactor T) (id : Nat) :
    (r.find_deep_dependencies_on id).Nodup :=
  findDeepF_nodup r r.cells.length id

/-! ### Worklist propagation: transfer helpers -/

lemma upsetL_nil {r : Reactor T} {c : Nat} : ¬ upsetL r [] c := by
  rintro ⟨d, hd, -⟩
  exact List.not_mem_nil d hd

lemma upsetL_cons {r : Reactor T} {d : Nat} {l : List Nat} {c : Nat} :
    upsetL r (d :: l) c ↔ Reaches r c d ∨ upsetL r l c := by
  unfold upsetL
  constructor
  · rintro ⟨x, hx, hr⟩
    rcases List.mem_cons.mp hx with rfl | hx'
    · exact Or.inl hr
    · exact Or.inr ⟨x, hx', hr⟩
  · rintro (hr | ⟨x, hx, hr⟩)
    · exact ⟨d, List.mem_cons_self d l, hr⟩
    · exact ⟨x, List.mem_cons_of_mem d hx, hr⟩

lemma SameShape.upsetL_eq {r₁ r₂ : Reactor T} (h : SameShape r₁ r₂) :
    upsetL r₁ = upsetL r₂ := by
  funext l c
  unfold upsetL Reaches
  rw [h.depEdge_eq]

lemma SameShape.incoming_eq {r₁ r₂ : Reactor T} (h : SameShape r₁ r₂) (d : Nat) :
    r₁.incoming d = r₂.incoming d := by
  unfold Reactor.incoming
  rw [h.length_eq]
  rw [show (fun c => ((r₁.depsOf c).filter (fun x => x = d)).map (fun _ => c))
      = (fun c => ((r₂.depsOf c).filter (fun x => x = d)).map (fun _ => c)) from
    funext (fun c => by rw [h.depsOf_eq c])]

lemma upsetL_incoming {r : Reactor T} {d c : Nat} :
    upsetL r (r.incoming d) c ↔ Relation.TransGen (DepEdge r) c d := by
  unfold upsetL
  constructor
  · rintro ⟨x, hx, hr⟩
    exact Relation.TransGen.tail'_iff.mpr ⟨x, hr, mem_incoming.mp hx⟩
  · intro h
    rcases Relation.TransGen.tail'_iff.mp h with ⟨x, hr, hx⟩
    exact ⟨x, mem_incoming.mpr hx, hr⟩

lemma no_self_trans {r : Reactor T} (hwf : WF r) (c : Nat) :
    ¬ Relation.TransGen (DepEdge r) c c :=
  fun h => absurd (transGen_lt hwf h) (Nat.lt_irrefl c)

lemma done_transfer {r r' : Reactor T} (hskel : SameSkel r r') {c : Nat}
    (hget : r'.cells[c]? = r.cells[c]?) (hd : Done r c) : Done r' c := by
  unfold Done at *
  rw [valueAt_def, hget, ← valueAt_def, hd, hskel.eval_eq]

lemma valueAt_setCell_self {r : Reactor T} {id : Nat} (c : Cell T)
    (h : id < r.cells.length) : (r.setCell id c).valueAt id = c.value :=
  valueAt_of_get _ (setCell_get_self r id c h)

/-! ### The worklist propagation specification -/

lemma stepList_spec {n fuel : Nat}
    {step : Reactor T → Nat → Except ReactError (Reactor T × List Nat)}
    (hstep : UpdSpec n step fuel) :
    ∀ (l : List Nat) (r : Reactor T), WF r → r.cells.length = n →
    (∀ d ∈ l, d < n ∧ n - d ≤ fuel) →
    ∃ r' tr, stepList step r l = .ok (r', tr) ∧
      SameSkel r r' ∧
      r'.curCallbackId = r.curCallbackId ∧
      (∀ c, ¬ upsetL r l c → r'.cells[c]? = r.cells[c]?) ∧
      (∀ c ∈ tr, upsetL r l c) ∧
      (∀ c, upsetL r l c → c ∈ tr) ∧
      (∀ c, upsetL r l c →
        (∀ e, Relation.TransGen (DepEdge r) c e → ¬ upsetL r l e → Done r e) →
        Done r' c) := by
  intro l
  induction l with
  | nil =>
    intro r hwf hn _
    refine ⟨r, [], rfl, SameSkel.skel_rfl r, rfl, fun c _ => rfl, ?_, ?_, ?_⟩
    · intro c hc
      exact absurd hc (List.not_mem_nil c)
    · intro c hc
      exact absurd hc upsetL_nil
    · intro c hc
      exact absurd hc upsetL_nil
  | cons d ds ih =>
    intro r hwf hn hl
    obtain ⟨hd1, hd2⟩ := hl d (List.mem_cons_self d ds)
    obtain ⟨rb, trd, hres1, hskel1, hcur1, hunt1, htrm1, htri1, hdone1⟩ :=
      hstep r d hwf hn hd1 hd2
    have hshape1 : SameShape r rb := hskel1.toShape
    have hwfb : WF rb := (hshape1.wf_iff).mp hwf
    have hnb : rb.cells.length = n := hshape1.length_eq ▸ hn
    obtain ⟨r', trr, hres2, hskel2, hcur2, hunt2, htrm2, htri2, hdone2⟩ :=
      ih rb hwfb hnb (fun x hx => hl x (List.mem_cons_of_mem d hx))
    have hups : upsetL rb = upsetL r := (hshape1.upsetL_eq).symm
    have hdep : DepEdge rb = DepEdge r := (hshape1.depEdge_eq).symm
    have hreach : Reaches rb = Reaches r := (hshape1.reaches_eq).symm
    refine ⟨r', trd ++ trr, ?_, hskel1.skel_trans hskel2, hcur2.trans hcur1, ?_, ?_, ?_, ?_⟩
    · show stepList step r (d :: ds) = .ok (r', trd ++ trr)
      unfold stepList
      simp only [hres1, hres2]
    · -- untouched outside the region
      intro c hc
      rw [upsetL_cons] at hc
      push_neg at hc
      rw [hunt2 c (by rw [hups]; exact hc.2), hunt1 c hc.1]
    · -- the trace lies inside the region
      intro c hc
      rcases List.mem_append.mp hc with h | h
      · exact upsetL_cons.mpr (Or.inl (htrm1 c h))
      · exact upsetL_cons.mpr (Or.inr (by rw [← hups]; exact htrm2 c h))
    · -- the region lies inside the trace
      intro c hc
      rcases upsetL_cons.mp hc with h | h
      · exact List.mem_append_left _ (htri1 c h)
      · exact List.mem_append_right _ (htri2 c (by rw [hups]; exact h))
    · -- the up-to-date property
      intro c hc H
      by_cases hcds : upsetL r ds c
      · -- handled by the tail of the worklist
        refine hdone2 c (by rw [hups]; exact hcds) ?_
        intro e hce hne
        rw [hdep] at hce
        rw [hups] at hne
        by_cases her : Reaches r e d
        · -- e was brought up to date by the head step
          refine hdone1 e her ?_
          intro e' he' hne'
          have hnds : ¬ upsetL r ds e' := by
            rintro ⟨x, hx, hrx⟩
            exact hne ⟨x, hx, Relation.ReflTransGen.trans he'.to_reflTransGen hrx⟩
          refine H e' (Relation.TransGen.trans hce he') ?_
          rw [upsetL_cons]
          push_neg
          exact ⟨hne', hnds⟩
        · -- e is entirely outside the touched region
          have hnl : ¬ upsetL r (d :: ds) e := by
            rw [upsetL_cons]
            push_neg
            exact ⟨her, hne⟩
          exact done_transfer hskel1 (hunt1 e her) (H e hce hnl)
      · -- c reaches d but is not in the tail region
        have hcd : Reaches r c d := by
          rcases upsetL_cons.mp hc with h | h
          · exact h
          · exact absurd h hcds
        have hdoneb : Done rb c := by
          refine hdone1 c hcd ?_
          intro e' he' hne'
          have hnds : ¬ upsetL r ds e' := by
            rintro ⟨x, hx, hrx⟩
            exact hcds ⟨x, hx, Relation.ReflTransGen.trans he'.to_reflTransGen hrx⟩
          refine H e' he' ?_
          rw [upsetL_cons]
          push_neg
          exact ⟨hne', hnds⟩
        have hcb : ¬ upsetL rb ds c := by rw [hups]; exact hcds
        exact done_transfer hskel2 (hunt2 c hcb) hdoneb

lemma updateOneF_spec (n : Nat) :
    ∀ fuel, UpdSpec n (fun (r : Reactor T) d => Reactor.updateOneF fuel r d) fuel := by
  intro fuel
  induction fuel with
  | zero =>
    intro r d hwf hn hd hfuel
    exact absurd hd (by omega)
  | succ g ih =>
    intro r d hwf hn hd hfuel
    have hdlen : d < r.cells.length := hn ▸ hd
    obtain ⟨cell, hcell⟩ : ∃ c, r.cells[d]? = some c :=
      ⟨r.cells[d], List.getElem?_eq_getElem hdlen⟩
    have hincb : ∀ x ∈ r.incoming d, x < n ∧ n - x ≤ g := by
      intro x hx
      have hdep := mem_incoming.mp hx
      have h1 : d < x := depEdge_lt hwf hdep
      have h2 : x < r.cells.length := depEdge_src_lt_length hdep
      omega
    cases cell with
    | input v =>
      have hcs := compute_shallow_input hcell
      obtain ⟨r', tri, hres, hskel, hcur, hunt, htrm, htri, hdone⟩ :=
        stepList_spec ih (r.incoming d) r hwf hn hincb
      refine ⟨r', d :: tri, ?_, hskel, hcur, ?_, ?_, ?_, ?_⟩
      · show Reactor.updateOneF (g + 1) r d = .ok (r', d :: tri)
        unfold Reactor.updateOneF
        simp only [hcs, hres]
      · intro c hc
        have hnt : ¬ upsetL r (r.incoming d) c :=
          fun hu => hc (upsetL_incoming.mp hu).to_reflTransGen
        exact hunt c hnt
      · intro c hc
        rcases List.mem_cons.mp hc with rfl | hc2
        · exact Relation.ReflTransGen.refl
        · exact (upsetL_incoming.mp (htrm c hc2)).to_reflTransGen
      · intro c hc
        rcases reaches_cases hc with rfl | htg
        · exact List.mem_cons_self _ _
        · exact List.mem_cons_of_mem _ (htri c (upsetL_incoming.mpr htg))
      · intro c hc H
        have hdd : Done r d := by
          unfold Done
          rw [valueAt_of_get r hcell, eval_input hcell]
          rfl
        rcases reaches_cases hc with rfl | htg
        · refine done_transfer hskel ?_ hdd
          exact hunt c (fun hu => no_self_trans hwf c (upsetL_incoming.mp hu))
        · refine hdone c (upsetL_incoming.mpr htg) ?_
          intro e hce hne
          rw [upsetL_incoming] at hne
          by_cases her : Reaches r e d
          · rcases reaches_cases her with rfl | htg2
            · exact hdd
            · exact absurd htg2 hne
          · exact H e hce her
    | computed deps f v cbs =>
      have hcs := compute_shallow_computed hcell
      set w := f (deps.map r.valueAt) with hw
      set ra := r.setCell d (.computed deps f w cbs) with hra
      have hskel0 : SameSkel r ra := sameSkel_setCell_computed w hcell
      have hshape0 : SameShape r ra := hskel0.toShape
      have hwfa : WF ra := hshape0.wf_iff.mp hwf
      have hna : ra.cells.length = n := hshape0.length_eq ▸ hn
      have hinca : ra.incoming d = r.incoming d := (hshape0.incoming_eq d).symm
      have hdepa : DepEdge ra = DepEdge r := hshape0.depEdge_eq.symm
      have hupsa : upsetL ra = upsetL r := hshape0.upsetL_eq.symm
      have hincba : ∀ x ∈ ra.incoming d, x < n ∧ n - x ≤ g := by
        rw [hinca]; exact hincb
      obtain ⟨r', tri, hres, hskel, hcur, hunt, htrm, htri, hdone⟩ :=
        stepList_spec ih (ra.incoming d) ra hwfa hna hincba
      refine ⟨r', d :: tri, ?_, hskel0.skel_trans hskel, by rw [hcur]; rfl, ?_, ?_, ?_, ?_⟩
      · show Reactor.updateOneF (g + 1) r d = .ok (r', d :: tri)
        unfold Reactor.updateOneF
        simp only [hcs, hres]
      · intro c hc
        have hcd : c ≠ d := fun h => hc (h ▸ Relation.ReflTransGen.refl)
        have h1 : ra.cells[c]? = r.cells[c]? := setCell_get_ne r d c _ (Ne.symm hcd)
        have hnt : ¬ upsetL ra (ra.incoming d) c := by
          rw [hinca, hupsa]
          exact fun hu => hc (upsetL_incoming.mp hu).to_reflTransGen
        rw [hunt c hnt, h1]
      · intro c hc
        rcases List.mem_cons.mp hc with rfl | hc2
        · exact Relation.ReflTransGen.refl
        · have hm := htrm c hc2
          rw [hinca, hupsa] at hm
          exact (upsetL_incoming.mp hm).to_reflTransGen
      · intro c hc
        rcases reaches_cases hc with rfl | htg
        · exact List.mem_cons_self _ _
        · refine List.mem_cons_of_mem _ (htri c ?_)
          rw [hinca, hupsa]
          exact upsetL_incoming.mpr htg
      · intro c hc H
        have hdeps : r.depsOf d = deps := by rw [depsOf_def, hcell]
        have hDad : (∀ e ∈ deps, Done r e) → Done ra d := by
          intro hds
          unfold Done
          rw [valueAt_setCell_self _ hdlen]
          show w = ra.eval d
          rw [← hskel0.eval_eq d, eval_computed hwf hcell, hw]
          congr 1
          exact List.map_congr_left (fun e he => hds e he)
        have hdepsdone : Done ra d := by
          apply hDad
          intro e he
          have hde : Relation.TransGen (DepEdge r) d e :=
            Relation.TransGen.single (by rw [DepEdge, hdeps]; exact he)
          have hnre : ¬ Reaches r e d := by
            intro hre
            have h1 : e < d := transGen_lt hwf hde
            have h2 : d ≤ e := reaches_le hwf hre
            omega
          rcases reaches_cases hc with rfl | htg
          · exact H e hde hnre
          · exact H e (Relation.TransGen.trans htg hde) hnre
        rcases reaches_cases hc with rfl | htg
        · refine done_transfer hskel ?_ hdepsdone
          refine hunt c ?_
          rw [hinca, hupsa]
          exact fun hu => no_self_trans hwf c (upsetL_incoming.mp hu)
        · refine hdone c ?_ ?_
          · rw [hinca, hupsa]
            exact upsetL_incoming.mpr htg
          · intro e hce hne
            rw [hdepa] at hce
            rw [hinca, hupsa, upsetL_incoming] at hne
            by_cases her : Reaches r e d
            · rcases reaches_cases her with rfl | htg2
              · exact hdepsdone
              · exact absurd htg2 hne
            · have hd0 := H e hce her
              have hed : e ≠ d := fun h => her (h ▸ Relation.ReflTransGen.refl)
              have h1 : ra.cells[e]? = r.cells[e]? := setCell_get_ne r d e _ (Ne.symm hed)
              exact done_transfer hskel0 h1 hd0

/-! ### `update_dependants` and `set_value` specifications -/

lemma update_dependants_spec {r : Reactor T} (hwf : WF r) {id : Nat}
    (hid : id < r.cells.length) :
    ∃ r' tr, r.update_dependants id = .ok (r', tr) ∧
      SameSkel r r' ∧
      r'.curCallbackId = r.curCallbackId ∧
      (∀ c, ¬ Reaches r c id → r'.cells[c]? = r.cells[c]?) ∧
      (∀ c ∈ tr, Reaches r c id) ∧
      (∀ c, Reaches r c id → c ∈ tr) ∧
      (∀ c, Reaches r c id →
        (∀ e, Relation.TransGen (DepEdge r) c e → ¬ Reaches r e id → Done r e) →
        Done r' c) :=
  updateOneF_spec r.cells.length (r.cells.length + 1) r id hwf rfl hid
    (by omega)

lemma invoke_callback_computed {r : Reactor T} {c : Nat} {deps : List Nat}
    {f : List T → T} {v : T} {cbs : List Nat}
    (h : r.cells[c]? = some (.computed deps f v cbs)) :
    r.invoke_callback c = .ok (cbs.map (fun cb => (⟨c, cb, v⟩ : CbEvent T))) := by
  unfold Reactor.invoke_callback
  rw [h]

lemma invokeAll_ok {r : Reactor T} :
    ∀ {l : List Nat},
    (∀ c ∈ l, ∃ deps f v cbs, r.cells[c]? = some (Cell.computed deps f v cbs)) →
    r.invokeAll l =
      (l.flatMap (fun c => (r.getCbs c).map (fun cb => (⟨c, cb, r.valueAt c⟩ : CbEvent T))),
        none) := by
  intro l
  induction l with
  | nil => intro _; rfl
  | cons c cs ih =>
    intro h
    obtain ⟨deps, f, v, cbs, hg⟩ := h c (List.mem_cons_self c cs)
    have hcbs : r.getCbs c = cbs := by rw [getCbs_def, hg]
    have hv : r.valueAt c = v := valueAt_of_get r hg
    show Reactor.invokeAll r (c :: cs) = _
    unfold Reactor.invokeAll
    rw [invoke_callback_computed hg, ih (fun x hx => h x (List.mem_cons_of_mem c hx))]
    simp only [List.flatMap_cons, hcbs, hv]

lemma set_value_missing {r : Reactor T} {id : Nat} (h : r.cells[id]? = none) (v : T) :
    r.set_value id v = (r, [], .error (.MissingCell id)) := by
  unfold Reactor.set_value
  rw [h]

lemma set_value_computed_err {r : Reactor T} {id : Nat} {deps : List Nat}
    {f : List T → T} {w : T} {cbs : List Nat}
    (h : r.cells[id]? = some (.computed deps f w cbs)) (v : T) :
    r.set_value id v = (r, [], .error (.ExpectedInputCell id)) := by
  unfold Reactor.set_value
  rw [h]

lemma set_value_ok {r : Reactor T} (hwf : WF r) {id : Nat} {w : T}
    (hcell : r.cells[id]? = some (.input w)) (v : T) :
    ∃ r2 evs,
      r.set_value id v = (r2, evs, .ok ()) ∧
      SameSkel (r.setCell id (.input v)) r2 ∧
      r2.curCallbackId = r.curCallbackId ∧
      (∀ c, ¬ Reaches r c id → r2.cells[c]? = (r.setCell id (.input v)).cells[c]?) ∧
      ((∀ e, ¬ Reaches r e id → Done (r.setCell id (.input v)) e) → ∀ c, Done r2 c) ∧
      (∃ changed : List Nat,
        evs = changed.flatMap
          (fun c => (r2.getCbs c).map (fun cb => (⟨c, cb, r2.valueAt c⟩ : CbEvent T))) ∧
        changed.Nodup ∧
        (∀ c, c ∈ changed ↔ (Relation.TransGen (DepEdge r) c id ∧
          (r.setCell id (.input v)).valueAt c ≠ r2.valueAt c))) := by
  set r1 := r.setCell id (.input v) with hr1
  have hshape1 : SameShape r r1 := sameShape_setCell_input v hcell
  have hwf1 : WF r1 := hshape1.wf_iff.mp hwf
  have hid : id < r.cells.length := lt_length_of_get_some r hcell
  have hid1 : id < r1.cells.length := by
    rw [← hshape1.length_eq]
    exact hid
  obtain ⟨r2, tr, hupd, hskel, hcur, hunt, htrm, htri, hdone⟩ :=
    update_dependants_spec hwf1 hid1
  have hshape2 : SameShape r1 r2 := hskel.toShape
  have hreach1 : Reaches r1 = Reaches r := hshape1.reaches_eq.symm
  have hdep1 : DepEdge r1 = DepEdge r := hshape1.depEdge_eq.symm
  -- the affected set
  set affected := r1.find_deep_dependencies_on id with haff
  have haffmem : ∀ c, c ∈ affected ↔ Relation.TransGen (DepEdge r) c id := by
    intro c
    rw [haff, mem_find_deep hwf1, hdep1]
  have haffnd : affected.Nodup := find_deep_nodup r1 id
  have haffcomp : ∀ c ∈ affected, ∃ deps f u cbs,
      r2.cells[c]? = some (Cell.computed deps f u cbs) := by
    intro c hc
    have htg : Relation.TransGen (DepEdge r1) c id := by
      rw [hdep1]
      exact (haffmem c).mp hc
    obtain ⟨deps, f, u, cbs, hg⟩ := transGen_src_computed htg
    obtain ⟨u2, hg2⟩ := hshape2.computed_iff c hg
    exact ⟨deps, f, u2, cbs, hg2⟩
  -- the before-values lookup
  set before := affected.map (fun dep => (dep, r1.valueAt dep)) with hbef
  have hlook : ∀ c ∈ affected, (before.lookup c).getD default = r1.valueAt c := by
    intro c hc
    rw [hbef, lookup_map_self affected (fun dep => r1.valueAt dep) c hc]
    rfl
  -- the changed list
  set changed := affected.filter
    (fun node => !((before.lookup node).getD default = r2.valueAt node)) with hchg
  have hchgmem : ∀ c, c ∈ changed ↔
      (Relation.TransGen (DepEdge r) c id ∧ r1.valueAt c ≠ r2.valueAt c) := by
    intro c
    rw [hchg, List.mem_filter]
    constructor
    · rintro ⟨hca, hp⟩
      refine ⟨(haffmem c).mp hca, ?_⟩
      rw [← hlook c hca]
      simpa using hp
    · rintro ⟨htg, hne⟩
      have hca : c ∈ affected := (haffmem c).mpr htg
      refine ⟨hca, ?_⟩
      rw [hlook c hca] at *
      simpa using hne
  have hchgnd : changed.Nodup := List.Nodup.filter _ haffnd
  have hchgcomp : ∀ c ∈ changed, ∃ deps f u cbs,
      r2.cells[c]? = some (Cell.computed deps f u cbs) := by
    intro c hc
    exact haffcomp c (List.mem_of_mem_filter hc)
  have hinvoke := invokeAll_ok (r := r2) hchgcomp
  refine ⟨r2, _, ?_, hskel, by rw [hcur]; rfl, ?_, ?_,
    ⟨changed, rfl, hchgnd, hchgmem⟩⟩
  · -- the equation for set_value
    show r.set_value id v = _
    unfold Reactor.set_value
    rw [hcell]
    simp only [← hr1, ← haff, ← hbef, ← hchg, hupd, hinvoke]
  · -- frame outside the affected region
    intro c hc
    refine hunt c ?_
    rw [hreach1]
    exact hc
  · -- everything is brought up to date
    intro hout c
    by_cases hcr : Reaches r1 c id
    · refine hdone c hcr ?_
      intro e hce hne
      refine hout e ?_
      rw [← hreach1]
      exact hne
    · have hd1 : Done r1 c := by
        refine hout c ?_
        rw [← hreach1]
        exact hcr
      exact done_transfer hskel (hunt c hcr) hd1

/-! ### Equations for the remaining operations -/

lemma get_append_lt (r : Reactor T) (c : Cell T) {i : Nat} (h : i < r.cells.length) :
    (r.cells ++ [c])[i]? = r.cells[i]? := by
  rw [List.getElem?_append]
  simp [h]

lemma get_append_self (r : Reactor T) (c : Cell T) :
    (r.cells ++ [c])[r.cells.length]? = some c :=
  List.getElem?_concat_length _ _

lemma get_append_gt (r : Reactor T) (c : Cell T) {i : Nat} (h : r.cells.length < i) :
    (r.cells ++ [c])[i]? = none := by
  rw [List.getElem?_append]
  rw [if_neg (by omega)]
  have : 1 ≤ i - r.cells.length := by omega
  exact List.getElem?_eq_none (by simpa using this)

lemma create_input_eq (r : Reactor T) (v : T) :
    r.create_input v = (⟨r.cells ++ [.input v], r.curCallbackId⟩, r.cells.length) := rfl

lemma create_compute_ok {r : Reactor T} {deps : List Nat}
    (h : ∀ d ∈ deps, d < r.cells.length) (f : List T → T) :
    r.create_compute deps f =
      (⟨r.cells ++ [.computed deps f (f (deps.map r.valueAt)) []], r.curCallbackId⟩,
        .ok r.cells.length) := by
  unfold Reactor.create_compute
  have hm : deps.filter (fun dep => (r.cells[dep]?).isNone) = [] := by
    rw [List.filter_eq_nil_iff]
    intro d hd
    have : d < r.cells.length := h d hd
    obtain ⟨c, hc⟩ : ∃ c, r.cells[d]? = some c := ⟨r.cells[d], List.getElem?_eq_getElem this⟩
    simp [hc]
  rw [hm]
  rfl

lemma create_compute_missing {r : Reactor T} {deps : List Nat}
    (h : ∃ d ∈ deps, r.cells.length ≤ d) (f : List T → T) :
    r.create_compute deps f =
      (r, .error (.MissingDepedencies
        (deps.filter (fun dep => (r.cells[dep]?).isNone)))) := by
  unfold Reactor.create_compute
  obtain ⟨d, hd, hge⟩ := h
  have hdm : d ∈ deps.filter (fun dep => (r.cells[dep]?).isNone) := by
    rw [List.mem_filter]
    exact ⟨hd, by simp [List.getElem?_eq_none hge]⟩
  rw [if_pos]
  exact List.length_pos_of_mem hdm

lemma add_callback_missing {r : Reactor T} {c : Nat} (h : r.cells[c]? = none) :
    r.add_callback c = (r, .error (.MissingCell c)) := by
  unfold Reactor.add_callback
  rw [h]

lemma add_callback_input {r : Reactor T} {c : Nat} {v : T}
    (h : r.cells[c]? = some (.input v)) :
    r.add_callback c = (r, .error (.ExpectedComputedCell c)) := by
  unfold Reactor.add_callback
  rw [h]

lemma add_callback_computed {r : Reactor T} {c : Nat} {deps : List Nat}
    {f : List T → T} {v : T} {cbs : List Nat}
    (h : r.cells[c]? = some (.computed deps f v cbs)) :
    r.add_callback c =
      (⟨r.cells.set c (.computed deps f v (cbs ++ [r.curCallbackId])),
        r.curCallbackId + 1⟩, .ok r.curCallbackId) := by
  unfold Reactor.add_callback
  rw [h]

lemma remove_callback_missing {r : Reactor T} {c cb : Nat} (h : r.cells[c]? = none) :
    r.remove_callback c cb = (r, .error (.MissingCell c)) := by
  unfold Reactor.remove_callback
  rw [h]

lemma remove_callback_input {r : Reactor T} {c cb : Nat} {v : T}
    (h : r.cells[c]? = some (.input v)) :
    r.remove_callback c cb = (r, .error (.ExpectedComputedCell c)) := by
  unfold Reactor.remove_callback
  rw [h]

lemma remove_callback_mem {r : Reactor T} {c cb : Nat} {deps : List Nat}
    {f : List T → T} {v : T} {cbs : List Nat}
    (h : r.cells[c]? = some (.computed deps f v cbs)) (hmem : cb ∈ cbs) :
    r.remove_callback c cb =
      (⟨r.cells.set c (.computed deps f v (cbs.filter (fun x => x ≠ cb))),
        r.curCallbackId⟩, .ok ()) := by
  unfold Reactor.remove_callback
  simp only [h]
  rw [if_pos hmem]

lemma remove_callback_not_mem {r : Reactor T} {c cb : Nat} {deps : List Nat}
    {f : List T → T} {v : T} {cbs : List Nat}
    (h : r.cells[c]? = some (.computed deps f v cbs)) (hmem : cb ∉ cbs) :
    r.remove_callback c cb = (r, .error (.CallbackDoesntExist cb)) := by
  unfold Reactor.remove_callback
  simp only [h]
  rw [if_neg hmem]

/-! ### Invariant preservation -/

lemma mk_get_set_self {rb : Reactor T} {c : Nat} (cell : Cell T) (k : Nat)
    (h : c < rb.cells.length) :
    (⟨rb.cells.set c cell, k⟩ : Reactor T).cells[c]? = some cell := by
  show (rb.cells.set c cell)[c]? = some cell
  rw [List.getElem?_set_self h]

lemma mk_get_set_ne {rb : Reactor T} {c : Nat} (cell : Cell T) (k : Nat)
    {j : Nat} (h : j ≠ c) :
    (⟨rb.cells.set c cell, k⟩ : Reactor T).cells[j]? = rb.cells[j]? := by
  show (rb.cells.set c cell)[j]? = rb.cells[j]?
  rw [List.getElem?_set_ne (Ne.symm h)]

lemma setCbs_valueAt {rb : Reactor T} {c : Nat} {deps : List Nat} {f : List T → T}
    {v : T} {cbs : List Nat} (hg : rb.cells[c]? = some (.computed deps f v cbs))
    (cbs' : List Nat) (k : Nat) :
    ∀ j, (⟨rb.cells.set c (.computed deps f v cbs'), k⟩ : Reactor T).valueAt j
      = rb.valueAt j := by
  intro j
  by_cases hj : j = c
  · subst hj
    rw [valueAt_of_get _ (mk_get_set_self _ k (lt_length_of_get_some rb hg)),
      valueAt_of_get rb hg]
    rfl
  · rw [valueAt_def, mk_get_set_ne _ k hj, ← valueAt_def]

lemma setCbs_depsOf {rb : Reactor T} {c : Nat} {deps : List Nat} {f : List T → T}
    {v : T} {cbs : List Nat} (hg : rb.cells[c]? = some (.computed deps f v cbs))
    (cbs' : List Nat) (k : Nat) :
    ∀ j, (⟨rb.cells.set c (.computed deps f v cbs'), k⟩ : Reactor T).depsOf j
      = rb.depsOf j := by
  intro j
  by_cases hj : j = c
  · subst hj
    rw [depsOf_def, mk_get_set_self _ k (lt_length_of_get_some rb hg), depsOf_def, hg]
  · rw [depsOf_def, mk_get_set_ne _ k hj, ← depsOf_def]

lemma setCbs_getCbs {rb : Reactor T} {c : Nat} {deps : List Nat} {f : List T → T}
    {v : T} {cbs : List Nat} (hg : rb.cells[c]? = some (.computed deps f v cbs))
    (cbs' : List Nat) (k : Nat) :
    ∀ j, (⟨rb.cells.set c (.computed deps f v cbs'), k⟩ : Reactor T).getCbs j
      = if j = c then cbs' else rb.getCbs j := by
  intro j
  by_cases hj : j = c
  · subst hj
    rw [getCbs_def, mk_get_set_self _ k (lt_length_of_get_some rb hg), if_pos rfl]
  · rw [getCbs_def, mk_get_set_ne _ k hj, if_neg hj, ← getCbs_def]

lemma setCbs_wf {rb : Reactor T} {c : Nat} {deps : List Nat} {f : List T → T}
    {v : T} {cbs : List Nat} (hg : rb.cells[c]? = some (.computed deps f v cbs))
    (cbs' : List Nat) (k : Nat) (hwf : WF rb) :
    WF (⟨rb.cells.set c (.computed deps f v cbs'), k⟩ : Reactor T) := by
  intro i d hd
  rw [setCbs_depsOf hg cbs' k i] at hd
  exact hwf i d hd

lemma setCbs_consistent {rb : Reactor T} {c : Nat} {deps : List Nat} {f : List T → T}
    {v : T} {cbs : List Nat} (hg : rb.cells[c]? = some (.computed deps f v cbs))
    (cbs' : List Nat) (k : Nat) (hcons : Consistent rb) :
    Consistent (⟨rb.cells.set c (.computed deps f v cbs'), k⟩ : Reactor T) := by
  intro i deps0 f0 v0 cbs0 hg0
  have hval := setCbs_valueAt hg cbs' k
  by_cases hi : i = c
  · subst hi
    rw [mk_get_set_self _ k (lt_length_of_get_some rb hg)] at hg0
    injection hg0 with hg0
    injection hg0 with h1 h2 h3 h4
    subst h1; subst h2; subst h3
    refine Eq.trans (hcons i deps f v cbs hg) ?_
    congr 1
    exact List.map_congr_left (fun d _ => (hval d).symm)
  · rw [mk_get_set_ne _ k hi] at hg0
    refine Eq.trans (hcons i deps0 f0 v0 cbs0 hg0) ?_
    congr 1
    exact List.map_congr_left (fun d _ => (hval d).symm)

lemma valueAt_append_lt {rb : Reactor T} (cell : Cell T) (k : Nat) {i : Nat}
    (h : i < rb.cells.length) :
    (⟨rb.cells ++ [cell], k⟩ : Reactor T).valueAt i = rb.valueAt i := by
  rw [valueAt_def, valueAt_def]
  show ((rb.cells ++ [cell])[i]?.map Cell.value).getD default = _
  rw [get_append_lt rb cell h]

lemma append_wf {rb : Reactor T} {cell : Cell T} (k : Nat) (hwf : WF rb)
    (hdeps : ∀ d ∈ (match cell with
      | Cell.computed deps _ _ _ => deps
      | _ => []), d < rb.cells.length) :
    WF (⟨rb.cells ++ [cell], k⟩ : Reactor T) := by
  intro i d hd
  rw [depsOf_def] at hd
  rcases Nat.lt_trichotomy i rb.cells.length with hi | hi | hi
  · have : (rb.cells ++ [cell])[i]? = rb.cells[i]? := get_append_lt rb cell hi
    rw [show (⟨rb.cells ++ [cell], k⟩ : Reactor T).cells[i]? = rb.cells[i]? from this] at hd
    exact hwf i d (by rw [depsOf_def]; exact hd)
  · subst hi
    rw [show (⟨rb.cells ++ [cell], k⟩ : Reactor T).cells[rb.cells.length]? = some cell from
      get_append_self rb cell] at hd
    match cell with
    | Cell.input v => simp at hd
    | Cell.computed deps f v cbs => exact hdeps d hd
  · rw [show (⟨rb.cells ++ [cell], k⟩ : Reactor T).cells[i]? = none from
      get_append_gt rb cell hi] at hd
    simp at hd

lemma append_consistent {rb : Reactor T} {cell : Cell T} (k : Nat) (hwf : WF rb)
    (hcons : Consistent rb)
    (hcell : ∀ deps f v cbs, cell = Cell.computed deps f v cbs →
      (∀ d ∈ deps, d < rb.cells.length) ∧ v = f (deps.map rb.valueAt)) :
    Consistent (⟨rb.cells ++ [cell], k⟩ : Reactor T) := by
  intro i deps f v cbs hg
  rcases Nat.lt_trichotomy i rb.cells.length with hi | hi | hi
  · rw [show (⟨rb.cells ++ [cell], k⟩ : Reactor T).cells[i]? = rb.cells[i]? from
      get_append_lt rb cell hi] at hg
    refine Eq.trans (hcons i deps f v cbs hg) ?_
    congr 1
    refine List.map_congr_left (fun d hd => ?_)
    have hdeps : rb.depsOf i = deps := by rw [depsOf_def, hg]
    have hdi : d < i := hwf i d (by rw [hdeps]; exact hd)
    exact (valueAt_append_lt cell k (by omega)).symm
  · subst hi
    rw [show (⟨rb.cells ++ [cell], k⟩ : Reactor T).cells[rb.cells.length]? = some cell from
      get_append_self rb cell] at hg
    injection hg with hg
    obtain ⟨hbound, hv⟩ := hcell deps f v cbs hg
    refine Eq.trans hv ?_
    congr 1
    refine List.map_congr_left (fun d hd => ?_)
    exact (valueAt_append_lt cell k (hbound d hd)).symm
  · rw [show (⟨rb.cells ++ [cell], k⟩ : Reactor T).cells[i]? = none from
      get_append_gt rb cell hi] at hg
    exact Option.noConfusion hg

lemma append_cbNodup {rb : Reactor T} (cell : Cell T) (k : Nat) (hnd : CbNodup rb)
    (hc : (match cell with
      | Cell.computed _ _ _ cbs => cbs
      | _ => []).Nodup) :
    CbNodup (⟨rb.cells ++ [cell], k⟩ : Reactor T) := by
  intro j
  rw [getCbs_def]
  rcases Nat.lt_trichotomy j rb.cells.length with hj | hj | hj
  · rw [show (⟨rb.cells ++ [cell], k⟩ : Reactor T).cells[j]? = rb.cells[j]? from
      get_append_lt rb cell hj, ← getCbs_def]
    exact hnd j
  · subst hj
    rw [show (⟨rb.cells ++ [cell], k⟩ : Reactor T).cells[rb.cells.length]? = some cell from
      get_append_self rb cell]
    match cell with
    | Cell.input v => exact List.nodup_nil
    | Cell.computed deps f v cbs => exact hc
  · rw [show (⟨rb.cells ++ [cell], k⟩ : Reactor T).cells[j]? = none from
      get_append_gt rb cell hj]
    exact List.nodup_nil

lemma append_cbBound {rb : Reactor T} (cell : Cell T) (hbd : CbBound rb)
    (hc : ∀ cb ∈ (match cell with
      | Cell.computed _ _ _ cbs => cbs
      | _ => []), cb < rb.curCallbackId) :
    CbBound (⟨rb.cells ++ [cell], rb.curCallbackId⟩ : Reactor T) := by
  intro j cb hcb
  show cb < rb.curCallbackId
  rw [getCbs_def] at hcb
  rcases Nat.lt_trichotomy j rb.cells.length with hj | hj | hj
  · rw [show (⟨rb.cells ++ [cell], rb.curCallbackId⟩ : Reactor T).cells[j]? = rb.cells[j]?
      from get_append_lt rb cell hj, ← getCbs_def] at hcb
    exact hbd j cb hcb
  · subst hj
    rw [show (⟨rb.cells ++ [cell], rb.curCallbackId⟩ : Reactor T).cells[rb.cells.length]?
      = some cell from get_append_self rb cell] at hcb
    match cell, hcb with
    | Cell.input v, hcb => exact absurd hcb (List.not_mem_nil cb)
    | Cell.computed deps f v cbs, hcb => exact hc cb hcb
  · rw [show (⟨rb.cells ++ [cell], rb.curCallbackId⟩ : Reactor T).cells[j]? = none from
      get_append_gt rb cell hj] at hcb
    exact absurd hcb (List.not_mem_nil cb)

theorem reachable_inv {r : Reactor T} (h : Reachable r) : Inv r ∧ Consistent r := by
  unfold Reachable at h
  induction h with
  | refl =>
    have hget : ∀ i : Nat, (Reactor.new : Reactor T).cells[i]? = none := fun i => by
      simp [Reactor.new]
    refine ⟨⟨?_, ?_, ?_⟩, ?_⟩
    · intro i d hd
      rw [depsOf_def, hget i] at hd
      exact absurd hd (List.not_mem_nil d)
    · intro i
      rw [getCbs_def, hget i]
      exact List.nodup_nil
    · intro i cb hcb
      rw [getCbs_def, hget i] at hcb
      exact absurd hcb (List.not_mem_nil cb)
    · intro i deps f v cbs hg
      rw [hget i] at hg
      exact Option.noConfusion hg
  | tail hsteps hstep ih =>
    obtain ⟨⟨hwf, hnd, hbd⟩, hcons⟩ := ih
    rename_i rb rc
    cases hstep with
    | create_input v =>
      simp only [create_input_eq]
      refine ⟨⟨?_, ?_, ?_⟩, ?_⟩
      · exact append_wf _ hwf (by intro d hd; exact absurd hd (List.not_mem_nil d))
      · exact append_cbNodup _ _ hnd List.nodup_nil
      · exact append_cbBound _ hbd (by intro cb hcb; exact absurd hcb (List.not_mem_nil cb))
      · exact append_consistent _ hwf hcons
          (by intro deps f v0 cbs heq; exact Cell.noConfusion heq)
    | create_compute deps f =>
      by_cases hall : ∀ d ∈ deps, d < rb.cells.length
      · simp only [create_compute_ok hall f]
        refine ⟨⟨?_, ?_, ?_⟩, ?_⟩
        · exact append_wf _ hwf hall
        · exact append_cbNodup _ _ hnd List.nodup_nil
        · exact append_cbBound _ hbd (by intro cb hcb; exact absurd hcb (List.not_mem_nil cb))
        · refine append_consistent _ hwf hcons ?_
          intro deps0 f0 v0 cbs0 heq
          injection heq with h1 h2 h3 h4
          subst h1; subst h2; subst h3
          exact ⟨hall, rfl⟩
      · push_neg at hall
        obtain ⟨d, hd, hge⟩ := hall
        have hex : ∃ d0 ∈ deps, rb.cells.length ≤ d0 := ⟨d, hd, by omega⟩
        simp only [create_compute_missing hex f]
        exact ⟨⟨hwf, hnd, hbd⟩, hcons⟩
    | set_value id v =>
      match hg : rb.cells[id]? with
      | none =>
        simp only [set_value_missing hg v]
        exact ⟨⟨hwf, hnd, hbd⟩, hcons⟩
      | some (.computed deps f w cbs) =>
        simp only [set_value_computed_err hg v]
        exact ⟨⟨hwf, hnd, hbd⟩, hcons⟩
      | some (.input w) =>
        obtain ⟨r2, evs, heq, hskel, hcur, hunt, hdall, -⟩ := set_value_ok hwf hg v
        simp only [heq]
        have hshape1 : SameShape rb (rb.setCell id (.input v)) := sameShape_setCell_input v hg
        have hshape : SameShape rb r2 := hshape1.shape_trans hskel.toShape
        have hwf2 : WF r2 := hshape.wf_iff.mp hwf
        have hout : ∀ e, ¬ Reaches rb e id → Done (rb.setCell id (.input v)) e := by
          intro e hne
          have hde : Done rb e := consistent_done hwf hcons e
          have hne2 : e ≠ id := fun hh => hne (hh ▸ Relation.ReflTransGen.refl)
          have hgete : (rb.setCell id (.input v)).cells[e]? = rb.cells[e]? :=
            setCell_get_ne rb id e _ (Ne.symm hne2)
          unfold Done at hde ⊢
          rw [valueAt_def, hgete, ← valueAt_def, hde]
          exact (eval_setInput_outside hg v e hne).symm
        have hdone2 := hdall hout
        refine ⟨⟨hwf2, ?_, ?_⟩, done_consistent hwf2 hdone2⟩
        · intro i
          rw [← hshape.getCbs_eq i]
          exact hnd i
        · intro i cb hcb
          rw [← hshape.getCbs_eq i] at hcb
          rw [hcur]
          exact hbd i cb hcb
    | add_callback c =>
      match hg : rb.cells[c]? with
      | none =>
        simp only [add_callback_missing hg]
        exact ⟨⟨hwf, hnd, hbd⟩, hcons⟩
      | some (.input w) =>
        simp only [add_callback_input hg]
        exact ⟨⟨hwf, hnd, hbd⟩, hcons⟩
      | some (.computed deps f w cbs) =>
        simp only [add_callback_computed hg]
        have hcbs : rb.getCbs c = cbs := by rw [getCbs_def, hg]
        refine ⟨⟨setCbs_wf hg _ _ hwf, ?_, ?_⟩, setCbs_consistent hg _ _ hcons⟩
        · intro j
          rw [setCbs_getCbs hg _ _ j]
          by_cases hj : j = c
          · rw [if_pos hj]
            have h1 : cbs.Nodup := by rw [← hcbs]; exact hnd c
            have h2 : rb.curCallbackId ∉ cbs := fun hm =>
              absurd (hbd c _ (by rw [hcbs]; exact hm)) (Nat.lt_irrefl _)
            simp [List.nodup_append, h1, h2]
          · rw [if_neg hj]
            exact hnd j
        · intro j cb hcb
          rw [setCbs_getCbs hg _ _ j] at hcb
          show cb < rb.curCallbackId + 1
          by_cases hj : j = c
          · rw [if_pos hj] at hcb
            rcases List.mem_append.mp hcb with hm | hm
            · have := hbd c cb (by rw [hcbs]; exact hm)
              omega
            · simp only [List.mem_singleton] at hm
              omega
          · rw [if_neg hj] at hcb
            have := hbd j cb hcb
            omega
    | remove_callback c cb =>
      match hg : rb.cells[c]? with
      | none =>
        simp only [remove_callback_missing hg]
        exact ⟨⟨hwf, hnd, hbd⟩, hcons⟩
      | some (.input w) =>
        simp only [remove_callback_input hg]
        exact ⟨⟨hwf, hnd, hbd⟩, hcons⟩
      | some (.computed deps f w cbs) =>
        by_cases hm : cb ∈ cbs
        · simp only [remove_callback_mem hg hm]
          have hcbs : rb.getCbs c = cbs := by rw [getCbs_def, hg]
          refine ⟨⟨setCbs_wf hg _ _ hwf, ?_, ?_⟩, setCbs_consistent hg _ _ hcons⟩
          · intro j
            rw [setCbs_getCbs hg _ _ j]
            by_cases hj : j = c
            · rw [if_pos hj]
              exact List.Nodup.filter _ (by rw [← hcbs]; exact hnd c)
            · rw [if_neg hj]
              exact hnd j
          · intro j cb0 hcb
            rw [setCbs_getCbs hg _ _ j] at hcb
            show cb0 < rb.curCallbackId
            by_cases hj : j = c
            · rw [if_pos hj] at hcb
              exact hbd c cb0 (by rw [hcbs]; exact List.mem_of_mem_filter hcb)
            · rw [if_neg hj] at hcb
              exact hbd j cb0 hcb
        · simp only [remove_callback_not_mem hg hm]
          exact ⟨⟨hwf, hnd, hbd⟩, hcons⟩

/-! ### Fuel congruence (termination) for `update_dependants` -/

lemma compute_shallow_skel {r r_a : Reactor T} {d : Nat} {v : T}
    (h : r.compute_cell_shallow d = .ok (r_a, v)) : SameSkel r r_a := by
  match hg : r.cells[d]? with
  | none =>
    rw [compute_shallow_missing hg] at h
    exact Except.noConfusion h
  | some (.input w) =>
    rw [compute_shallow_input hg] at h
    injection h with h
    injection h with h1 h2
    rw [← h1]
    exact SameSkel.skel_rfl r
  | some (.computed deps f w cbs) =>
    rw [compute_shallow_computed hg] at h
    injection h with h
    injection h with h1 h2
    rw [← h1]
    exact sameSkel_setCell_computed _ hg

lemma stepList_congr {n fuel : Nat}
    {step₁ step₂ : Reactor T → Nat → Except ReactError (Reactor T × List Nat)}
    (hspec : UpdSpec n step₁ fuel) (P : Nat → Prop)
    (hP : ∀ d, P d → d < n ∧ n - d ≤ fuel)
    (h : ∀ r d, WF r → r.cells.length = n → P d → step₁ r d = step₂ r d) :
    ∀ (l : List Nat) (r : Reactor T), WF r → r.cells.length = n →
      (∀ d ∈ l, P d) →
      stepList step₁ r l = stepList step₂ r l := by
  intro l
  induction l with
  | nil => intro r _ _ _; rfl
  | cons d ds ih =>
    intro r hwf hn hl
    have hPd := hl d (List.mem_cons_self d ds)
    obtain ⟨hd1, hd2⟩ := hP d hPd
    obtain ⟨r1, tr, hres, hskel, -, -, -, -, -⟩ := hspec r d hwf hn hd1 hd2
    have hwf1 : WF r1 := hskel.toShape.wf_iff.mp hwf
    have hn1 : r1.cells.length = n := hskel.toShape.length_eq ▸ hn
    show stepList step₁ r (d :: ds) = stepList step₂ r (d :: ds)
    unfold stepList
    rw [← h r d hwf hn hPd]
    simp only [hres, ih r1 hwf1 hn1 (fun x hx => hl x (List.mem_cons_of_mem d hx))]

lemma updateOneF_congr {n : Nat} :
    ∀ fuel₁ fuel₂ (r : Reactor T) d, WF r → r.cells.length = n → d < n →
      n - d ≤ fuel₁ → n - d ≤ fuel₂ →
      Reactor.updateOneF fuel₁ r d = Reactor.updateOneF fuel₂ r d := by
  intro fuel₁
  induction fuel₁ with
  | zero =>
    intro fuel₂ r d hwf hn hd h₁ h₂
    exact absurd hd (by omega)
  | succ g₁ ih =>
    intro fuel₂ r d hwf hn hd h₁ h₂
    obtain ⟨g₂, rfl⟩ : ∃ g, fuel₂ = g + 1 := ⟨fuel₂ - 1, by omega⟩
    show Reactor.updateOneF (g₁ + 1) r d = Reactor.updateOneF (g₂ + 1) r d
    unfold Reactor.updateOneF
    cases hres : r.compute_cell_shallow d with
    | error e => rfl
    | ok p =>
      obtain ⟨r_a, v⟩ := p
      have hskel_a : SameSkel r r_a := compute_shallow_skel hres
      have hwfa : WF r_a := hskel_a.toShape.wf_iff.mp hwf
      have hna : r_a.cells.length = n := hskel_a.toShape.length_eq ▸ hn
      have hinc_eq : r_a.incoming d = r.incoming d := (hskel_a.toShape.incoming_eq d).symm
      have hsl : stepList (fun r' d' => Reactor.updateOneF g₁ r' d') r_a (r_a.incoming d)
          = stepList (fun r' d' => Reactor.updateOneF g₂ r' d') r_a (r_a.incoming d) := by
        refine stepList_congr (updateOneF_spec n g₁)
          (fun x => x < n ∧ n - x ≤ g₁ ∧ n - x ≤ g₂) ?_ ?_ _ r_a hwfa hna ?_
        · exact fun d' hd' => ⟨hd'.1, hd'.2.1⟩
        · exact fun r' d' hwf' hn' hPd => ih g₂ r' d' hwf' hn' hPd.1 hPd.2.1 hPd.2.2
        · intro x hx
          rw [hinc_eq] at hx
          have hdep := mem_incoming.mp hx
          have hx1 : d < x := depEdge_lt hwf hdep
          have hx2 : x < r.cells.length := depEdge_src_lt_length hdep
          exact ⟨by omega, by omega, by omega⟩
      simp only [hsl]

/-! ### Small counting helpers -/

lemma length_le_of_get_none {r : Reactor T} {d : Nat} (h : r.cells[d]? = none) :
    r.cells.length ≤ d := by
  by_contra hlt
  rw [List.getElem?_eq_getElem (Nat.lt_of_not_le hlt)] at h
  exact Option.noConfusion h

lemma countP_eq_one_of_nodup_mem {l : List Nat} (hnd : l.Nodup) {a : Nat} (ha : a ∈ l) :
    l.countP (fun x => decide (x = a)) = 1 := by
  induction l with
  | nil => exact absurd ha (List.not_mem_nil a)
  | cons x xs ih =>
    rw [List.nodup_cons] at hnd
    rw [List.countP_cons]
    by_cases hx : x = a
    · subst hx
      have hzero : xs.countP (fun y => decide (y = x)) = 0 := by
        rw [List.countP_eq_zero]
        intro y hy
        simp only [decide_eq_true_eq]
        intro heq
        exact hnd.1 (heq ▸ hy)
      simp [hzero]
    · have hxs : a ∈ xs := by
        rcases List.mem_cons.mp ha with h | h
        · exact absurd h.symm hx
        · exact h
      simp only [decide_eq_true_eq, hx, if_false]
      exact ih hnd.2 hxs

lemma map_sum_single {l : List Nat} (hnd : l.Nodup) (g : Nat → Nat) (c : Nat)
    (hzero : ∀ x ∈ l, x ≠ c → g x = 0) :
    (l.map g).sum = if c ∈ l then g c else 0 := by
  induction l with
  | nil => simp
  | cons x xs ih =>
    rw [List.nodup_cons] at hnd
    rw [List.map_cons, List.sum_cons]
    by_cases hx : x = c
    · subst hx
      have hczero : (xs.map g).sum = 0 := by
        have : ∀ y ∈ xs, g y = 0 := by
          intro y hy
          exact hzero y (List.mem_cons_of_mem x hy) (fun hyx => hnd.1 (hyx ▸ hy))
        rw [List.sum_eq_zero]
        intro y hy
        rcases List.mem_map.mp hy with ⟨z, hz, rfl⟩
        exact this z hz
      rw [hczero, if_pos (List.mem_cons_self x xs)]
      omega
    · rw [hzero x (List.mem_cons_self x xs) hx,
        ih hnd.2 (fun y hy hyc => hzero y (List.mem_cons_of_mem x hy) hyc)]
      by_cases hc : c ∈ xs
      · rw [if_pos hc, if_pos (List.mem_cons_of_mem x hc)]
        omega
      · rw [if_neg hc, if_neg (fun hmem => ?_)]
        rcases List.mem_cons.mp hmem with h | h
        · exact hx h.symm
        · exact hc h

/-! ### Reachability of the concrete reactors -/

lemma reachable_diamond : Reachable diamond := by
  have h1 : Reachable ((Reactor.new : Reactor Int).create_input 1).1 :=
    Relation.ReflTransGen.tail Relation.ReflTransGen.refl (Step.create_input _ 1)
  have h2 : Reachable (((Reactor.new : Reactor Int).create_input 1).1.create_compute
      [0] (fun l => l.foldl (· + ·) 0)).1 :=
    Relation.ReflTransGen.tail h1 (Step.create_compute _ [0] _)
  have h3 : Reachable ((((Reactor.new : Reactor Int).create_input 1).1.create_compute
      [0] (fun l => l.foldl (· + ·) 0)).1.create_compute
      [0] (fun l => l.foldl (· + ·) 0)).1 :=
    Relation.ReflTransGen.tail h2 (Step.create_compute _ [0] _)
  exact Relation.ReflTransGen.tail h3 (Step.create_compute _ [1, 2] _)

lemma reachable_cbReactor : Reachable cbReactor := by
  have h1 : Reachable ((Reactor.new : Reactor Int).create_input 1).1 :=
    Relation.ReflTransGen.tail Relation.ReflTransGen.refl (Step.create_input _ 1)
  have h2 : Reachable (((Reactor.new : Reactor Int).create_input 1).1.create_compute
      [0] (fun l => l.foldl (· + ·) 0)).1 :=
    Relation.ReflTransGen.tail h1 (Step.create_compute _ [0] _)
  exact Relation.ReflTransGen.tail h2 (Step.add_callback _ 1)

lemma reachable_cb2Reactor : Reachable cb2Reactor :=
  Relation.ReflTransGen.tail reachable_cbReactor (Step.add_callback _ 1)

/-! ## Claim theorems -/

/-- Claim C2: for every sequence of `create_input`, `create_compute` and
successful `set_value` operations (any reachable reactor), after each
successful `set_value` returns, every computed cell's cached value equals its
compute function applied to its dependencies' current values taken in
declared argument order: no computed cell is left stale. -/
theorem c2_no_stale_cell_after_set_value {r r' : Reactor T}
    {evs : List (CbEvent T)} {id : Nat} {v : T} (hreach : Reachable r)
    (hsv : r.set_value id v = (r', evs, .ok ())) :
    Consistent r' := by
  have hr : Reachable (r.set_value id v).1 :=
    Relation.ReflTransGen.tail hreach (Step.set_value r id v)
  rw [hsv] at hr
  exact (reachable_inv hr).2

/-- Witness for C2 on the concrete diamond reactor. -/
theorem c2_witness : Consistent (diamond.set_value 0 5).1 := by
  have hre : Reachable diamond := reachable_diamond
  have hsv : diamond.set_value 0 5 =
      ((diamond.set_value 0 5).1, (diamond.set_value 0 5).2.1, .ok ()) := by
    rw [show (Except.ok () : Except ReactError Unit) = (diamond.set_value 0 5).2.2 from rfl]
  exact c2_no_stale_cell_after_set_value hre hsv

/-- Claim C4: `create_compute` with at least one nonexistent dependency id
fails with `MissingDepedencies` whose payload is exactly the list of
nonexistent ids (all of them, in declared order), and leaves the graph store
unmodified (the returned reactor state is the argument itself). -/
theorem c4_missing_dependencies {r : Reactor T} {deps : List Nat}
    (hmiss : ∃ d ∈ deps, r.cells[d]? = none) (f : List T → T) :
    r.create_compute deps f =
      (r, .error (.MissingDepedencies
        (deps.filter (fun dep => (r.cells[dep]?).isNone)))) ∧
    ∀ d, d ∈ deps.filter (fun dep => (r.cells[dep]?).isNone) ↔
      (d ∈ deps ∧ r.cells[d]? = none) := by
  constructor
  · refine create_compute_missing ?_ f
    obtain ⟨d, hd, hn⟩ := hmiss
    exact ⟨d, hd, length_le_of_get_none hn⟩
  · intro d
    rw [List.mem_filter]
    simp [Option.isNone_iff_eq_none]

/-- Witness for C4: creating a computed cell over the missing ids 5 and 7. -/
theorem c4_witness :
    diamond.create_compute [5, 0, 7] (fun l => l.foldl (· + ·) 0)
      = (diamond, .error (.MissingDepedencies [5, 7])) := by
  have h := c4_missing_dependencies
    (show ∃ d ∈ [5, 0, 7], diamond.cells[d]? = none from ⟨5, by decide, rfl⟩)
    (fun l => l.foldl (· + ·) 0)
  exact h.1.trans rfl

/-- Claim C5: every successful `create_compute(deps, f)` returns the next fresh
id, caches `f` applied to the dependencies' current values in declared order
(so `value(new_id)` immediately afterwards equals that), and records one
dependency edge per listed dependency, labeled with its 0-based argument
position (the new cell's outgoing edge list is exactly `deps.enum`). -/
theorem c5_create_compute_success {r r' : Reactor T} {deps : List Nat}
    {f : List T → T} {newId : Nat}
    (h : r.create_compute deps f = (r', .ok newId)) :
    newId = r.cells.length ∧
    r'.value newId = some (f (deps.map r.valueAt)) ∧
    r'.edgesOut newId = deps.enum := by
  by_cases hall : ∀ d ∈ deps, d < r.cells.length
  · rw [create_compute_ok hall f] at h
    injection h with h1 h2
    injection h2 with h2
    subst h2
    refine ⟨rfl, ?_, ?_⟩
    · rw [← h1, value_def]
      rw [show (⟨r.cells ++ [Cell.computed deps f (f (deps.map r.valueAt)) []],
        r.curCallbackId⟩ : Reactor T).cells[r.cells.length]?
        = some (Cell.computed deps f (f (deps.map r.valueAt)) []) from
        get_append_self r _]
      rfl
    · rw [← h1]
      unfold Reactor.edgesOut
      rw [depsOf_def]
      rw [show (⟨r.cells ++ [Cell.computed deps f (f (deps.map r.valueAt)) []],
        r.curCallbackId⟩ : Reactor T).cells[r.cells.length]?
        = some (Cell.computed deps f (f (deps.map r.valueAt)) []) from
        get_append_self r _]
  · push_neg at hall
    obtain ⟨d, hd, hge⟩ := hall
    have hex : ∃ d0 ∈ deps, r.cells.length ≤ d0 := ⟨d, hd, by omega⟩
    rw [create_compute_missing hex f] at h
    injection h with h1 h2
    exact Except.noConfusion h2

/-- Witness for C5: creating a sum cell over cells 1 and 0 of the diamond. -/
theorem c5_witness :
    (diamond.create_compute [1, 0] (fun l => l.foldl (· + ·) 0)).1.value 4
      = some 2 := by
  have hcc : diamond.create_compute [1, 0] (fun l => l.foldl (· + ·) 0)
      = ((diamond.create_compute [1, 0] (fun l => l.foldl (· + ·) 0)).1, .ok 4) := by
    rw [show (Except.ok 4 : Except ReactError Nat)
      = (diamond.create_compute [1, 0] (fun l => l.foldl (· + ·) 0)).2 from rfl]
  have h := c5_create_compute_success hcc
  rw [h.2.1]
  decide

/-- Claim C6: the evaluator passes dependency values to the compute function in
the cell's declared argument order, independent of the order in which the
graph traversal yields the dependency edges: for any permutation of the edge
list, the `BTreeMap`-based gathering reconstructs `deps.map valueAt` from the
position labels, and `compute_cell_shallow` stores `f` of exactly that. -/
theorem c6_declared_order_reconstructed {r : Reactor T} {id : Nat}
    {deps : List Nat} {f : List T → T} {v : T} {cbs : List Nat}
    (hc : r.cells[id]? = some (.computed deps f v cbs)) :
    (∀ es : List (Nat × Nat), es.Perm (r.edgesOut id) →
      r.gatherFrom es = deps.map r.valueAt) ∧
    r.compute_cell_shallow id =
      .ok (r.setCell id (.computed deps f (f (deps.map r.valueAt)) cbs),
        f (deps.map r.valueAt)) :=
  ⟨fun es hperm => gatherFrom_perm_edgesOut r hc hperm, compute_shallow_computed hc⟩

/-- Witness for C6: gathering the diamond's top cell dependencies from the
reversed edge order yields the declared-order argument list. -/
theorem c6_witness :
    diamond.gatherFrom [(1, 2), (0, 1)] = [1, 1] := by
  have h := c6_declared_order_reconstructed
    (show diamond.cells[3]?
      = some (.computed [1, 2] (fun l => l.foldl (· + ·) 0) 2 []) from rfl)
  refine (h.1 [(1, 2), (0, 1)] ?_).trans (by decide)
  decide

/-- Claim C7: `set_value` returns `MissingCell` when the id is unknown and
`ExpectedInputCell` when it names a computed cell; in both cases it returns
the unchanged reactor state and an empty invocation list (no cell is
modified, no callback fires). -/
theorem c7_set_value_error_cases (r : Reactor T) (id : Nat) (v : T) :
    (r.cells[id]? = none →
      r.set_value id v = (r, [], .error (.MissingCell id))) ∧
    (∀ deps f w cbs, r.cells[id]? = some (.computed deps f w cbs) →
      r.set_value id v = (r, [], .error (.ExpectedInputCell id))) :=
  ⟨fun h => set_value_missing h v,
    fun deps f w cbs h => set_value_computed_err h v⟩

/-- Witness for C7: setting a missing cell and a computed cell of the
diamond. -/
theorem c7_witness :
    diamond.set_value 9 5 = (diamond, [], .error (.MissingCell 9)) ∧
    diamond.set_value 3 5 = (diamond, [], .error (.ExpectedInputCell 3)) :=
  ⟨(c7_set_value_error_cases diamond 9 5).1 rfl,
    (c7_set_value_error_cases diamond 3 5).2 [1, 2]
      (fun l => l.foldl (· + ·) 0) 2 [] rfl⟩

/-- Claim C9: `value(id)` returns the cached value of an existing cell and
`none` for an unknown id; it is a pure read of the cache (the embedding's
`value` returns no new state), and it never recomputes: on a directly-built
stale reactor it returns the stale cached value 99 even though recomputation
(`eval`) would yield 1. -/
theorem c9_value_is_pure_cache_read :
    (∀ {S : Type} [Inhabited S] [DecidableEq S] (r : Reactor S) (id : Nat),
      (∀ c, r.cells[id]? = some c → r.value id = some c.value) ∧
      (r.cells[id]? = none → r.value id = none)) ∧
    staleReactor.value 1 = some 99 ∧ staleReactor.eval 1 = 1 := by
  refine ⟨?_, by decide, by decide⟩
  intro S _ _ r id
  constructor
  · intro c hc
    rw [value_def, hc]
    rfl
  · intro h
    rw [value_def, h]
    rfl

/-- Witness for C9 on the stale reactor's input cell. -/
theorem c9_witness : staleReactor.value 0 = some (Cell.value (.input (1 : Int))) :=
  (c9_value_is_pure_cache_read.1 staleReactor 0).1 (.input 1) rfl

/-- Claim C10: for every reactor built through the public operations (hence
with an acyclic, index-decreasing dependency graph), propagation from an
existing input cell terminates: the recursive traversals
`find_deep_dependencies_on` and `update_dependants` are fuel-insensitive at
any fuel of at least `cells.length` — the bounded recursion the operations
run already reaches the fixed point, so only finitely many recursive calls
occur. -/
theorem c10_propagation_terminates {r : Reactor T} (hreach : Reachable r)
    {id : Nat} {w : T} (hcell : r.cells[id]? = some (.input w)) :
    ∀ fuel, r.cells.length ≤ fuel →
      r.findDeepF fuel id = r.find_deep_dependencies_on id ∧
      Reactor.updateOneF fuel r id = r.update_dependants id := by
  obtain ⟨⟨hwf, -, -⟩, -⟩ := reachable_inv hreach
  intro fuel hfuel
  have hid : id < r.cells.length := lt_length_of_get_some r hcell
  constructor
  · exact findDeepF_congr hwf fuel r.cells.length id (by omega) (by omega)
  · exact updateOneF_congr fuel (r.cells.length + 1) r id hwf rfl hid
      (by omega) (by omega)

/-- Witness for C10: fuel 10 and the built-in fuel agree on the diamond. -/
theorem c10_witness :
    diamond.findDeepF 10 0 = diamond.find_deep_dependencies_on 0 ∧
    Reactor.updateOneF 10 diamond 0 = diamond.update_dependants 0 :=
  c10_propagation_terminates reachable_diamond rfl 10 (by decide)

/-- Claim C3, counterexample: the claim "every computed cell in the affected
set is recomputed (its compute function invoked) exactly once per
`set_value`" is false: in the diamond reactor, mutating input 0 makes
`update_dependants` recompute the fan-in cell 3 twice — once per incoming
path — even though 3 is in the affected set.  The trace of cells passed to
`compute_cell_shallow` is `[0, 1, 3, 2, 3]`. -/
theorem c3_counterexample :
    3 ∈ diamond.find_deep_dependencies_on 0 ∧
    ((diamond.setCell 0 (.input 5)).update_dependants 0).toOption.map
      (fun p => p.2.count 3) = some 2 := by
  constructor
  · decide
  · decide

/-- Claim C3, amended: during a single `set_value` call on an input cell,
every computed cell in the affected set is recomputed at least once — in
general once per dependency path from the cell to the mutated input, so a
diamond yields two recomputations rather than exactly one; only the mutated
input and its transitive dependents are ever recomputed; and each affected
cell's final recomputation happens after its dependencies have reached their
final values, so after `update_dependants` returns every computed cell is
consistent with its dependencies' current values. -/
theorem c3_amended {r : Reactor T} (hreach : Reachable r) {id : Nat} {w : T}
    (hcell : r.cells[id]? = some (.input w)) (v : T) :
    ∃ r2 tr, (r.setCell id (.input v)).update_dependants id = .ok (r2, tr) ∧
      (∀ c, Relation.TransGen (DepEdge r) c id → c ∈ tr) ∧
      (∀ c ∈ tr, Reaches r c id) ∧
      Consistent r2 := by
  obtain ⟨⟨hwf, -, -⟩, hcons⟩ := reachable_inv hreach
  have hshape1 : SameShape r (r.setCell id (.input v)) := sameShape_setCell_input v hcell
  have hwf1 : WF (r.setCell id (.input v)) := hshape1.wf_iff.mp hwf
  have hid1 : id < (r.setCell id (.input v)).cells.length := by
    rw [← hshape1.length_eq]
    exact lt_length_of_get_some r hcell
  obtain ⟨r2, tr, hupd, hskel, hcur, hunt, htrm, htri, hdone⟩ :=
    update_dependants_spec hwf1 hid1
  have hdep1 : DepEdge (r.setCell id (.input v)) = DepEdge r := hshape1.depEdge_eq.symm
  have hreach1 : Reaches (r.setCell id (.input v)) = Reaches r := hshape1.reaches_eq.symm
  have hwf2 : WF r2 := hskel.toShape.wf_iff.mp hwf1
  refine ⟨r2, tr, hupd, ?_, ?_, ?_⟩
  · intro c htg
    refine htri c ?_
    rw [hreach1]
    exact htg.to_reflTransGen
  · intro c hctr
    have h := htrm c hctr
    rw [hreach1] at h
    exact h
  · -- every cell is up to date after the propagation
    have hout : ∀ e, ¬ Reaches (r.setCell id (.input v)) e id →
        Done (r.setCell id (.input v)) e := by
      intro e hne
      rw [hreach1] at hne
      have hde : Done r e := consistent_done hwf hcons e
      have hne2 : e ≠ id := fun hh => hne (hh ▸ Relation.ReflTransGen.refl)
      have hgete : (r.setCell id (.input v)).cells[e]? = r.cells[e]? :=
        setCell_get_ne r id e _ (Ne.symm hne2)
      unfold Done at hde ⊢
      rw [valueAt_def, hgete, ← valueAt_def, hde]
      exact (eval_setInput_outside hcell v e hne).symm
    have hall : ∀ c, Done r2 c := by
      intro c
      by_cases hcr : Reaches (r.setCell id (.input v)) c id
      · refine hdone c hcr ?_
        intro e hce hne
        exact hout e hne
      · exact done_transfer hskel (hunt c hcr) (hout c hcr)
    exact done_consistent hwf2 hall

/-- Witness for the amended C3 on the diamond reactor. -/
theorem c3_amended_witness :
    ∃ r2 tr, (diamond.setCell 0 (.input 5)).update_dependants 0 = .ok (r2, tr) ∧
      (∀ c, Relation.TransGen (DepEdge diamond) c 0 → c ∈ tr) ∧
      (∀ c ∈ tr, Reaches diamond c 0) ∧
      Consistent r2 :=
  c3_amended reachable_diamond rfl 5

/-- Claim C1: for a single successful `set_value` call, each callback
registered at call time on a computed cell fires zero times if that cell's
value before the call equals its post-propagation value, and exactly once —
receiving the cell's final post-propagation value — if the value changed,
including under diamond-shaped fan-in (which causes multiple internal
recomputation visits but not multiple firings). -/
theorem c1_callback_exactly_once {r r' : Reactor T} {evs : List (CbEvent T)}
    {id : Nat} {v : T} (hreach : Reachable r)
    (hsv : r.set_value id v = (r', evs, .ok ()))
    {c : Nat} {deps : List Nat} {f : List T → T} {w : T} {cbs : List Nat}
    (hc : r.cells[c]? = some (.computed deps f w cbs)) {cb : Nat} (hcb : cb ∈ cbs) :
    evs.countP (fun e => decide (e.cell = c ∧ e.cb = cb))
      = (if r'.valueAt c = r.valueAt c then 0 else 1) ∧
    ∀ e ∈ evs, e.cell = c → e.val = r'.valueAt c := by
  obtain ⟨⟨hwf, hnd, hbd⟩, hcons⟩ := reachable_inv hreach
  match hg : r.cells[id]? with
  | none =>
    rw [set_value_missing hg v] at hsv
    injection hsv with h1 h2
    injection h2 with h2 h3
    exact Except.noConfusion h3
  | some (.computed deps0 f0 w0 cbs0) =>
    rw [set_value_computed_err hg v] at hsv
    injection hsv with h1 h2
    injection h2 with h2 h3
    exact Except.noConfusion h3
  | some (.input w0) =>
    obtain ⟨r2, evs2, heq, hskel, hcur, hunt, hdall, changed, hevs, hchnd, hchmem⟩ :=
      set_value_ok hwf hg v
    rw [heq] at hsv
    injection hsv with h1 h2
    injection h2 with h2 h3
    subst h1
    subst h2
    have hshape1 : SameShape r (r.setCell id (.input v)) := sameShape_setCell_input v hg
    have hshape : SameShape r r2 := hshape1.shape_trans hskel.toShape
    have hcbs_eq : r2.getCbs c = cbs := by
      rw [← hshape.getCbs_eq c, getCbs_def, hc]
    have hnd2 : cbs.Nodup := by
      have hh := hnd c
      rw [getCbs_def, hc] at hh
      exact hh
    have hcid : c ≠ id := by
      intro hcid
      rw [hcid, hg] at hc
      injection hc with hc
      exact Cell.noConfusion hc
    have hval1 : (r.setCell id (.input v)).valueAt c = r.valueAt c := by
      rw [valueAt_def, setCell_get_ne r id c _ (Ne.symm hcid), ← valueAt_def]
    constructor
    · rw [hevs, List.flatMap_def, List.countP_flatten, List.map_map]
      have hzero : ∀ x ∈ changed, x ≠ c →
          ((List.countP (fun e => decide (e.cell = c ∧ e.cb = cb))) ∘
            (fun c' => (r2.getCbs c').map
              (fun cb' => (⟨c', cb', r2.valueAt c'⟩ : CbEvent T)))) x = 0 := by
        intro x _ hxc
        show List.countP _ _ = 0
        rw [List.countP_eq_zero]
        intro e hein
        rcases List.mem_map.mp hein with ⟨cb1, hcb1, rfl⟩
        simp only [decide_eq_true_eq, not_and]
        intro hcell
        exact absurd hcell hxc
      rw [map_sum_single hchnd _ c hzero]
      have hinner : ((List.countP (fun e => decide (e.cell = c ∧ e.cb = cb))) ∘
          (fun c' => (r2.getCbs c').map
            (fun cb' => (⟨c', cb', r2.valueAt c'⟩ : CbEvent T)))) c = 1 := by
        show List.countP _ _ = 1
        rw [List.countP_map, hcbs_eq]
        rw [List.countP_congr (q := fun x => decide (x = cb)) ?_]
        · exact countP_eq_one_of_nodup_mem hnd2 hcb
        · intro x _
          simp
      by_cases htg : Relation.TransGen (DepEdge r) c id
      · by_cases hvv : r2.valueAt c = r.valueAt c
        · have hcnot : c ∉ changed := by
            intro hmem
            exact ((hchmem c).mp hmem).2 (hval1.trans hvv.symm)
          rw [if_neg hcnot, if_pos hvv]
        · have hcmem : c ∈ changed :=
            (hchmem c).mpr ⟨htg, by rw [hval1]; exact fun hh => hvv hh.symm⟩
          rw [if_pos hcmem, if_neg hvv, hinner]
      · have hnr : ¬ Reaches r c id := by
          intro hre
          rcases reaches_cases hre with rfl | htg2
          · exact hcid rfl
          · exact htg htg2
        have hvals : r2.valueAt c = r.valueAt c := by
          rw [valueAt_def, hunt c hnr, setCell_get_ne r id c _ (Ne.symm hcid),
            ← valueAt_def]
        have hcnot : c ∉ changed := fun hmem => htg ((hchmem c).mp hmem).1
        rw [if_neg hcnot, if_pos hvals]
    · intro e he hec
      rw [hevs] at he
      rcases List.mem_flatMap.mp he with ⟨c1, hc1, hein⟩
      rcases List.mem_map.mp hein with ⟨cb1, hcb1, rfl⟩
      show r2.valueAt c1 = r2.valueAt c
      rw [show c1 = c from hec]

/-- Witness for C1: the single callback on `cbReactor`'s computed cell fires
exactly once when the input changes from 1 to 2. -/
theorem c1_witness :
    ((cbReactor.set_value 0 2).2.1).countP
      (fun e => decide (e.cell = 1 ∧ e.cb = 0)) = 1 := by
  have hsv : cbReactor.set_value 0 2 =
      ((cbReactor.set_value 0 2).1, (cbReactor.set_value 0 2).2.1, .ok ()) := by
    rw [show (Except.ok () : Except ReactError Unit)
      = (cbReactor.set_value 0 2).2.2 from rfl]
  have h := c1_callback_exactly_once reachable_cbReactor hsv
    (show cbReactor.cells[1]?
      = some (.computed [0] (fun l => l.foldl (· + ·) 0) 1 [0]) from rfl)
    (show (0 : Nat) ∈ [0] from by decide)
  refine h.1.trans ?_
  decide

/-! ### Removed callbacks stay removed -/

lemma j_not_in_getCbs {r : Reactor T} {cell cb : Nat}
    (h : ∀ deps f v cbs, r.cells[cell]? = some (.computed deps f v cbs) → cb ∉ cbs) :
    cb ∉ r.getCbs cell := by
  rw [getCbs_def]
  match hg : r.cells[cell]? with
  | none => exact List.not_mem_nil cb
  | some (.input w) => exact List.not_mem_nil cb
  | some (.computed deps f v cbs) => exact h deps f v cbs hg

lemma removed_cb_step {cell cb : Nat} {r r' : Reactor T} (hstep : Step r r')
    (hreach : Reachable r) (hlt : cb < r.curCallbackId)
    (hnot : ∀ deps f v cbs, r.cells[cell]? = some (.computed deps f v cbs) → cb ∉ cbs) :
    cb < r'.curCallbackId ∧
    (∀ deps f v cbs, r'.cells[cell]? = some (.computed deps f v cbs) → cb ∉ cbs) := by
  cases hstep with
  | create_input v =>
    refine ⟨hlt, ?_⟩
    intro deps f v0 cbs hg
    rcases Nat.lt_trichotomy cell r.cells.length with hcl | hcl | hcl
    · rw [show ((r.create_input v).1).cells[cell]? = r.cells[cell]? from
        get_append_lt r _ hcl] at hg
      exact hnot deps f v0 cbs hg
    · rw [show ((r.create_input v).1).cells[cell]? = some (Cell.input v) from
        hcl ▸ get_append_self r _] at hg
      injection hg with hg
      exact Cell.noConfusion hg
    · rw [show ((r.create_input v).1).cells[cell]? = none from
        get_append_gt r _ hcl] at hg
      exact Option.noConfusion hg
  | create_compute deps0 f0 =>
    by_cases hall : ∀ d ∈ deps0, d < r.cells.length
    · rw [create_compute_ok hall f0]
      refine ⟨hlt, ?_⟩
      intro deps f v0 cbs hg
      rcases Nat.lt_trichotomy cell r.cells.length with hcl | hcl | hcl
      · rw [show (⟨r.cells ++ [Cell.computed deps0 f0 (f0 (deps0.map r.valueAt)) []],
          r.curCallbackId⟩ : Reactor T).cells[cell]? = r.cells[cell]? from
          get_append_lt r _ hcl] at hg
        exact hnot deps f v0 cbs hg
      · rw [show (⟨r.cells ++ [Cell.computed deps0 f0 (f0 (deps0.map r.valueAt)) []],
          r.curCallbackId⟩ : Reactor T).cells[cell]?
          = some (Cell.computed deps0 f0 (f0 (deps0.map r.valueAt)) []) from
          hcl ▸ get_append_self r _] at hg
        injection hg with hg
        injection hg with h1 h2 h3 h4
        rw [← h4]
        exact List.not_mem_nil cb
      · rw [show (⟨r.cells ++ [Cell.computed deps0 f0 (f0 (deps0.map r.valueAt)) []],
          r.curCallbackId⟩ : Reactor T).cells[cell]? = none from
          get_append_gt r _ hcl] at hg
        exact Option.noConfusion hg
    · push_neg at hall
      obtain ⟨d, hd, hge⟩ := hall
      have hex : ∃ d0 ∈ deps0, r.cells.length ≤ d0 := ⟨d, hd, by omega⟩
      rw [create_compute_missing hex f0]
      exact ⟨hlt, hnot⟩
  | set_value id v =>
    match hgid : r.cells[id]? with
    | none =>
      rw [set_value_missing hgid v]
      exact ⟨hlt, hnot⟩
    | some (.computed deps1 f1 w1 cbs1) =>
      rw [set_value_computed_err hgid v]
      exact ⟨hlt, hnot⟩
    | some (.input w1) =>
      obtain ⟨⟨hwf, -, -⟩, -⟩ := reachable_inv hreach
      obtain ⟨r2, evs2, heq, hskel, hcur, -, -, -⟩ := set_value_ok hwf hgid v
      simp only [heq]
      have hshape : SameShape r r2 :=
        (sameShape_setCell_input v hgid).shape_trans hskel.toShape
      refine ⟨by rw [hcur]; exact hlt, ?_⟩
      intro deps f v0 cbs hg
      obtain ⟨v1, hg1⟩ := hshape.shape_symm.computed_iff cell hg
      exact hnot deps f v1 cbs hg1
  | add_callback c =>
    match hgc : r.cells[c]? with
    | none =>
      rw [add_callback_missing hgc]
      exact ⟨hlt, hnot⟩
    | some (.input w1) =>
      rw [add_callback_input hgc]
      exact ⟨hlt, hnot⟩
    | some (.computed deps1 f1 w1 cbs1) =>
      rw [add_callback_computed hgc]
      refine ⟨show cb < r.curCallbackId + 1 by omega, ?_⟩
      intro deps f v0 cbs hg
      by_cases hcc : cell = c
      · subst hcc
        rw [mk_get_set_self _ _ (lt_length_of_get_some r hgc)] at hg
        injection hg with hg
        injection hg with h1 h2 h3 h4
        rw [← h4]
        intro hmem
        rcases List.mem_append.mp hmem with hm | hm
        · exact hnot deps1 f1 w1 cbs1 hgc hm
        · rw [List.mem_singleton] at hm
          omega
      · rw [mk_get_set_ne _ _ hcc] at hg
        exact hnot deps f v0 cbs hg
  | remove_callback c cb0 =>
    match hgc : r.cells[c]? with
    | none =>
      rw [remove_callback_missing hgc]
      exact ⟨hlt, hnot⟩
    | some (.input w1) =>
      rw [remove_callback_input hgc]
      exact ⟨hlt, hnot⟩
    | some (.computed deps1 f1 w1 cbs1) =>
      by_cases hm : cb0 ∈ cbs1
      · rw [remove_callback_mem hgc hm]
        refine ⟨hlt, ?_⟩
        intro deps f v0 cbs hg
        by_cases hcc : cell = c
        · subst hcc
          rw [mk_get_set_self _ _ (lt_length_of_get_some r hgc)] at hg
          injection hg with hg
          injection hg with h1 h2 h3 h4
          rw [← h4]
          intro hmem
          exact hnot deps1 f1 w1 cbs1 hgc (List.mem_of_mem_filter hmem)
        · rw [mk_get_set_ne _ _ hcc] at hg
          exact hnot deps f v0 cbs hg
      · rw [remove_callback_not_mem hgc hm]
        exact ⟨hlt, hnot⟩

lemma removed_cb_chain {cell cb : Nat} {r1 r2 : Reactor T}
    (hchain : Relation.ReflTransGen Step r1 r2) (hre1 : Reachable r1)
    (h1 : cb < r1.curCallbackId)
    (h2 : ∀ deps f v cbs, r1.cells[cell]? = some (.computed deps f v cbs) → cb ∉ cbs) :
    Reachable r2 ∧ cb < r2.curCallbackId ∧
    (∀ deps f v cbs, r2.cells[cell]? = some (.computed deps f v cbs) → cb ∉ cbs) := by
  induction hchain with
  | refl => exact ⟨hre1, h1, h2⟩
  | tail hsteps hstep ih =>
    obtain ⟨hreb, hb1, hb2⟩ := ih
    obtain ⟨hc1, hc2⟩ := removed_cb_step hstep hreb hb1 hb2
    exact ⟨Relation.ReflTransGen.tail hreb hstep, hc1, hc2⟩

/-- Claim C8: once `remove_callback(cell, cb)` succeeds, no later `set_value`
call — after any further sequence of operations — ever invokes callback `cb`
on `cell` again, even when the mutation's affected set contains `cell` and
its value changes (freshly issued callback ids are always new, so `cb` is
never reused). -/
theorem c8_removed_callback_never_fires {r0 r1 r2 r3 : Reactor T}
    {cell cb : Nat} {evs : List (CbEvent T)} {res : Except ReactError Unit}
    (hre : Reachable r0)
    (hrm : r0.remove_callback cell cb = (r1, .ok ()))
    (hchain : Relation.ReflTransGen Step r1 r2)
    {id : Nat} {v : T}
    (hsv : r2.set_value id v = (r3, evs, res)) :
    ∀ e ∈ evs, ¬ (e.cell = cell ∧ e.cb = cb) := by
  obtain ⟨⟨hwf0, hnd0, hbd0⟩, -⟩ := reachable_inv hre
  match hg : r0.cells[cell]? with
  | none =>
    rw [remove_callback_missing hg] at hrm
    injection hrm with h1 h2
    exact Except.noConfusion h2
  | some (.input w) =>
    rw [remove_callback_input hg] at hrm
    injection hrm with h1 h2
    exact Except.noConfusion h2
  | some (.computed deps f w cbs) =>
    by_cases hm : cb ∈ cbs
    · rw [remove_callback_mem hg hm] at hrm
      injection hrm with h1 h2
      have hre1 : Reachable r1 := by
        have hstep := Step.remove_callback r0 cell cb
        rw [remove_callback_mem hg hm] at hstep
        rw [← h1]
        exact Relation.ReflTransGen.tail hre hstep
      have hlt1 : cb < r1.curCallbackId := by
        rw [← h1]
        exact hbd0 cell cb (by rw [getCbs_def, hg]; exact hm)
      have hnot1 : ∀ deps0 f0 v0 cbs0,
          r1.cells[cell]? = some (.computed deps0 f0 v0 cbs0) → cb ∉ cbs0 := by
        intro deps0 f0 v0 cbs0 hg1
        rw [← h1] at hg1
        rw [mk_get_set_self _ _ (lt_length_of_get_some r0 hg)] at hg1
        injection hg1 with hg1
        injection hg1 with e1 e2 e3 e4
        rw [← e4]
        intro hmem
        rw [List.mem_filter] at hmem
        simp at hmem
      obtain ⟨hre2, hlt2, hnot2⟩ := removed_cb_chain hchain hre1 hlt1 hnot1
      obtain ⟨⟨hwf2, -, -⟩, -⟩ := reachable_inv hre2
      intro e he
      rintro ⟨hec, hecb⟩
      match hgid : r2.cells[id]? with
      | none =>
        rw [set_value_missing hgid v] at hsv
        injection hsv with q1 q2
        injection q2 with q2 q3
        rw [← q2] at he
        exact absurd he (List.not_mem_nil e)
      | some (.computed deps1 f1 w1 cbs1) =>
        rw [set_value_computed_err hgid v] at hsv
        injection hsv with q1 q2
        injection q2 with q2 q3
        rw [← q2] at he
        exact absurd he (List.not_mem_nil e)
      | some (.input w1) =>
        obtain ⟨r2', evs2, heq, hskel, -, -, -, changed, hevs, -, -⟩ :=
          set_value_ok hwf2 hgid v
        rw [heq] at hsv
        injection hsv with q1 q2
        injection q2 with q2 q3
        rw [← q2] at he
        rw [hevs] at he
        rcases List.mem_flatMap.mp he with ⟨c1, hc1, hein⟩
        rcases List.mem_map.mp hein with ⟨cb1, hcb1, rfl⟩
        have hc1c : c1 = cell := hec
        have hcb1c : cb1 = cb := hecb
        rw [hc1c, hcb1c] at hcb1
        have hshape2 : SameShape r2 r2' :=
          (sameShape_setCell_input v hgid).shape_trans hskel.toShape
        rw [← hshape2.getCbs_eq cell] at hcb1
        exact j_not_in_getCbs hnot2 hcb1
    · rw [remove_callback_not_mem hg hm] at hrm
      injection hrm with h1 h2
      exact Except.noConfusion h2

/-- Witness for C8: removing callback 0 from `cb2Reactor`'s computed cell,
then setting the input, fires only the surviving callback 1 — the single
emitted event carries callback id 1, not the removed id 0. -/
theorem c8_witness :
    ¬ ((⟨1, 1, 2⟩ : CbEvent Int).cell = 1 ∧ (⟨1, 1, 2⟩ : CbEvent Int).cb = 0) := by
  have hrm : cb2Reactor.remove_callback 1 0 =
      ((cb2Reactor.remove_callback 1 0).1, .ok ()) := by
    rw [show (Except.ok () : Except ReactError Unit)
      = (cb2Reactor.remove_callback 1 0).2 from rfl]
  have hsv : (cb2Reactor.remove_callback 1 0).1.set_value 0 2 =
      (((cb2Reactor.remove_callback 1 0).1.set_value 0 2).1,
       ((cb2Reactor.remove_callback 1 0).1.set_value 0 2).2.1,
       ((cb2Reactor.remove_callback 1 0).1.set_value 0 2).2.2) := rfl
  exact c8_removed_callback_never_fires reachable_cb2Reactor hrm
    Relation.ReflTransGen.refl hsv ⟨1, 1, 2⟩ (by decide)

end React